import Mathlib

/-!
Verification development for the `in-context-explorer` repository.

Part 1 embeds `agent_system/environments/env_package/webvoyager/projection.py`:
the action-grammar parser turning raw model text into normalized action
dictionaries plus validity flags.

Part 2 embeds `agent_system/memory/memory.py`: the per-instance conversation
history store (`WebVoyagerMemory`), its `store`/`fetch` operations and the
multi-modal `build_message_history` reconstruction with image budgeting.

Python strings are modelled as Lean `String`; Python dicts that the code
builds and reads by key are modelled as association lists with first-match
lookup and update-in-place/append-at-end write semantics (matching dict
insertion-order behaviour for the operations the code performs).  Python
integers are `Int`.  Exceptions are modelled with `Option`/flags.
-/

namespace ICE

/-- Character-by-character test whether `pat` occurs at the head of `hay`,
comparing characters through the mapping `f` (identity for case-sensitive
search, `Char.toLower` for the case-insensitive regexes of the source). -/
def matchesAt (f : Char → Char) : List Char → List Char → Bool
  | [], _ => true
  | _ :: _, [] => false
  | p :: ps, h :: hs => (f p = f h) && matchesAt f ps hs

/-- Index (relative to the given offset `i`) of the first occurrence of `pat`
in the haystack under character mapping `f`; `none` if absent. -/
def findSubFrom (f : Char → Char) (pat : List Char) : List Char → Nat → Option Nat
  | [], i => if matchesAt f pat [] then some i else none
  | c :: hs, i => if matchesAt f pat (c :: hs) then some i else findSubFrom f pat hs (i + 1)

/-- Identity character mapping (case-sensitive matching). -/
def idChar (c : Char) : Char := c

/-- Lower-casing character mapping (models `re.IGNORECASE`). -/
def lcChar (c : Char) : Char := c.toLower

/-- Case-sensitive substring test, modelling Python's `pat in s`. -/
def containsStr (s pat : String) : Bool :=
  (findSubFrom idChar pat.toList s.toList 0).isSome

/-- Position of the first case-sensitive occurrence of `pat` in `s`. -/
def strFindIdx (pat s : String) : Option Nat :=
  findSubFrom idChar pat.toList s.toList 0

/-- Python `str.strip()`: drop whitespace from both ends. -/
def pyStrip (s : String) : String :=
  String.mk (((s.toList.dropWhile Char.isWhitespace).reverse.dropWhile
    Char.isWhitespace).reverse)

/-- Python `str.lower()`, character by character. -/
def strLower (s : String) : String :=
  String.mk (s.toList.map Char.toLower)

/-- Test whether `s` starts with `pat` (Python `str.startswith`). -/
def startsWithStr (s pat : String) : Bool :=
  matchesAt idChar pat.toList s.toList

/-- Left-to-right non-overlapping replacement scan of Python `str.replace`
(structural fuel; each step consumes at least one character, so the caller's
fuel, the haystack length, is ample for a non-empty pattern). -/
def replaceCharsGo : Nat → List Char → List Char → List Char → List Char
  | _, _, _, [] => []
  | 0, _, _, cs => cs
  | fuel + 1, pat, repl, c :: rest =>
    if matchesAt idChar pat (c :: rest) then
      repl ++ replaceCharsGo fuel pat repl ((c :: rest).drop pat.length)
    else c :: replaceCharsGo fuel pat repl rest

/-- Python `s.replace(pat, repl)` for a non-empty pattern. -/
def pyReplace (s pat repl : String) : String :=
  String.mk (replaceCharsGo s.length pat.toList repl.toList s.toList)

/-- Split scan of Python `str.split(sep)` for a non-empty separator
(structural fuel, ample at the call site as for `replaceCharsGo`). -/
def splitOnGo : Nat → List Char → List Char → List Char → List (List Char)
  | _, _, [], cur => [cur.reverse]
  | 0, _, cs, cur => [cur.reverse ++ cs]
  | fuel + 1, pat, c :: rest, cur =>
    if matchesAt idChar pat (c :: rest) then
      cur.reverse :: splitOnGo fuel pat ((c :: rest).drop pat.length) []
    else splitOnGo fuel pat rest (c :: cur)

/-- Python `s.split(sep)` for a non-empty separator. -/
def pySplitOn (s pat : String) : List String :=
  (splitOnGo s.length pat.toList s.toList []).map String.mk

/-- Index of the last occurrence of character `c`, modelling `str.rfind` for a
single-character needle. -/
def lastIdxOf (c : Char) (cs : List Char) : Option Nat :=
  match cs.reverse.findIdx? (fun d => d = c) with
  | some j => some (cs.length - 1 - j)
  | none => none

/-- Embeds `_extract_action_block`: inner content of the first
case-insensitive `<action>...</action>` block (lazy closing tag), stripped;
empty string when absent. -/
def extract_action_block (t : String) : String :=
  let cs := t.toList
  match findSubFrom lcChar "<action>".toList cs 0 with
  | none => ""
  | some p =>
    match findSubFrom lcChar "</action>".toList (cs.drop (p + 8)) 0 with
    | none => ""
    | some q => pyStrip (String.mk ((cs.drop (p + 8)).take q))

/-- Embeds `_has_think_block`: a case-insensitive `<think>...</think>` block
exists somewhere in the text. -/
def has_think_block (t : String) : Bool :=
  let cs := t.toList
  match findSubFrom lcChar "<think>".toList cs 0 with
  | none => false
  | some p => (findSubFrom lcChar "</think>".toList (cs.drop (p + 7)) 0).isSome

/-- Embeds `_contains_chinese`: any CJK ideograph in `U+4E00`–`U+9FFF`. -/
def contains_chinese (t : String) : Bool :=
  t.toList.any (fun c => decide (0x4e00 ≤ c.toNat) && decide (c.toNat ≤ 0x9fff))

/-- JSON values, the possible results of the source's `json.loads` call. -/
inductive JVal where
  | str : String → JVal
  | num : Int → JVal
  | boolean : Bool → JVal
  | null : JVal
  | arr : List JVal → JVal
  | obj : List (String × JVal) → JVal

/-- JSON whitespace skipping for the embedded `json.loads`. -/
def skipWs : List Char → List Char
  | [] => []
  | c :: cs => if c = ' ' || c = '\t' || c = '\n' || c = '\r' then skipWs cs else c :: cs

/-- String-literal body parser for the embedded `json.loads` (standard
escapes; `\u` escapes are not modelled and make the parse fail, a corner the
claims do not touch). -/
def pStringBody (acc : List Char) : List Char → Option (String × List Char)
  | [] => none
  | '"' :: cs => some (String.mk acc.reverse, cs)
  | '\\' :: e :: cs =>
    match e with
    | '"' => pStringBody ('"' :: acc) cs
    | '\\' => pStringBody ('\\' :: acc) cs
    | '/' => pStringBody ('/' :: acc) cs
    | 'n' => pStringBody ('\n' :: acc) cs
    | 't' => pStringBody ('\t' :: acc) cs
    | 'r' => pStringBody ('\r' :: acc) cs
    | 'b' => pStringBody (Char.ofNat 8 :: acc) cs
    | 'f' => pStringBody (Char.ofNat 12 :: acc) cs
    | _ => none
  | c :: cs => pStringBody (c :: acc) cs

/-- Numeric value of a list of ASCII digits. -/
def digitsToNat (ds : List Char) : Nat :=
  ds.foldl (fun a c => a * 10 + (c.toNat - '0'.toNat)) 0

/-- Integer-literal parser for the embedded `json.loads` (JSON numbers with a
fraction or exponent are not modelled and make the parse fail; the source
only ever consumes integers). -/
def pNumber (cs : List Char) : Option (Int × List Char) :=
  let (neg, cs1) := match cs with
    | '-' :: rest => (true, rest)
    | _ => (false, cs)
  let ds := cs1.takeWhile Char.isDigit
  let rest := cs1.dropWhile Char.isDigit
  if ds = [] then none
  else if ds.length > 1 && ds.headD '0' = '0' then none
  else match rest with
    | '.' :: _ => none
    | 'e' :: _ => none
    | 'E' :: _ => none
    | _ =>
      let n : Int := Int.ofNat (digitsToNat ds)
      some (if neg then -n else n, rest)

/-- Write a key into a Python-dict model: update the first binding in place
when the key is present, append at the end otherwise. -/
def dictSet (k : String) (v : JVal) (d : List (String × JVal)) : List (String × JVal) :=
  if (List.lookup k d).isSome then
    d.map (fun kv => if kv.1 = k then (k, v) else kv)
  else d ++ [(k, v)]

mutual

/-- Value parser of the embedded `json.loads` (fuelled recursion; fuel is
chosen ample for the input length at the call site). -/
def pVal : Nat → List Char → Option (JVal × List Char)
  | 0, _ => none
  | fuel + 1, cs =>
    match skipWs cs with
    | '"' :: rest => (pStringBody [] rest).map (fun sv => (JVal.str sv.1, sv.2))
    | '{' :: rest =>
      (match skipWs rest with
       | '}' :: rest2 => some (JVal.obj [], rest2)
       | _ => (pObjItems fuel (skipWs rest) []).map (fun p => (JVal.obj p.1, p.2)))
    | '[' :: rest =>
      (match skipWs rest with
       | ']' :: rest2 => some (JVal.arr [], rest2)
       | _ => (pArrItems fuel (skipWs rest) []).map (fun p => (JVal.arr p.1, p.2)))
    | 't' :: 'r' :: 'u' :: 'e' :: rest => some (JVal.boolean true, rest)
    | 'f' :: 'a' :: 'l' :: 's' :: 'e' :: rest => some (JVal.boolean false, rest)
    | 'n' :: 'u' :: 'l' :: 'l' :: rest => some (JVal.null, rest)
    | cs2 => (pNumber cs2).map (fun p => (JVal.num p.1, p.2))

/-- Array-item loop of the embedded `json.loads`. -/
def pArrItems : Nat → List Char → List JVal → Option (List JVal × List Char)
  | 0, _, _ => none
  | fuel + 1, cs, acc =>
    match pVal fuel cs with
    | none => none
    | some (v, rest) =>
      match skipWs rest with
      | ',' :: rest2 => pArrItems fuel rest2 (acc ++ [v])
      | ']' :: rest2 => some (acc ++ [v], rest2)
      | _ => none

/-- Object-member loop of the embedded `json.loads`; duplicate keys overwrite
earlier ones, as in Python. -/
def pObjItems : Nat → List Char → List (String × JVal) →
    Option (List (String × JVal) × List Char)
  | 0, _, _ => none
  | fuel + 1, cs, acc =>
    match skipWs cs with
    | '"' :: rest =>
      (match pStringBody [] rest with
       | none => none
       | some (k, rest2) =>
         match skipWs rest2 with
         | ':' :: rest3 =>
           (match pVal fuel rest3 with
            | none => none
            | some (v, rest4) =>
              match skipWs rest4 with
              | ',' :: rest5 => pObjItems fuel rest5 (dictSet k v acc)
              | '}' :: rest5 => some (dictSet k v acc, rest5)
              | _ => none)
         | _ => none)
    | _ => none

end

/-- Embeds `json.loads` on a whole string: one value, only whitespace after. -/
def json_loads (s : String) : Option JVal :=
  match pVal (s.length + 2) s.toList with
  | some (v, rest) => if skipWs rest = [] then some v else none
  | none => none

/-- Replace every single-quote character by a double quote, modelling
`s.replace("'", '"')` in the source's quote-normalization fallback. -/
def squoteToDquote (s : String) : String :=
  String.mk (s.toList.map (fun c => if c = '\'' then '"' else c))

/-- Embeds `_parse_json_like`: strip, unwrap a leading code fence
(`split("```", 2)` semantics), cut at the last `}`, then `json.loads` with a
single-quote normalization fallback. -/
def parse_json_like (s : String) : Option JVal :=
  let sClean := pyStrip s
  let sClean :=
    if startsWithStr sClean "```" then
      let parts := pySplitOn sClean "```"
      if parts.length ≥ 3 then
        let p1 := parts.getD 1 ""
        let p2 := String.intercalate "```" (parts.drop 2)
        pyStrip (if containsStr p1 "\x7b" then p1 else p2)
      else pyStrip sClean
    else sClean
  let sClean :=
    match lastIdxOf '}' sClean.toList with
    | some i => String.mk (sClean.toList.take (i + 1))
    | none => sClean
  match json_loads sClean with
  | some v => some v
  | none =>
    if sClean.toList.contains '\'' && !(sClean.toList.contains '"') then
      json_loads (squoteToDquote sClean)
    else none

/-- Values stored in a normalized action dictionary (Python str or int). -/
inductive AVal where
  | s : String → AVal
  | i : Int → AVal
deriving DecidableEq, Repr

/-- Normalized action dictionaries as built by the source (`Dict[str, Any]`
with string/int values, in insertion order). -/
abbrev ActionDict : Type := List (String × AVal)

/-- The default action the projection emits for malformed input. -/
def waitDict : ActionDict := [("action_key", AVal.s "wait")]

mutual

/-- Python `repr` of a JSON-decoded value, as far as the source can observe it
(string quoting ignores escape corner cases). -/
def pyRepr : JVal → String
  | .str s => String.singleton '\'' ++ s ++ String.singleton '\''
  | .num n => toString n
  | .boolean b => if b then "True" else "False"
  | .null => "None"
  | .arr vs => "[" ++ String.intercalate ", " (pyReprList vs) ++ "]"
  | .obj kvs => "\x7b" ++ String.intercalate ", " (pyReprMembers kvs) ++ "\x7d"

/-- Helper of `pyRepr` for list elements. -/
def pyReprList : List JVal → List String
  | [] => []
  | v :: vs => pyRepr v :: pyReprList vs

/-- Helper of `pyRepr` for object members. -/
def pyReprMembers : List (String × JVal) → List String
  | [] => []
  | kv :: kvs =>
    (String.singleton '\'' ++ kv.1 ++ String.singleton '\'' ++ ": " ++ pyRepr kv.2)
      :: pyReprMembers kvs

end

/-- Python `str()` of a JSON-decoded value. -/
def pyStr : JVal → String
  | .str s => s
  | v => pyRepr v

/-- Python `int()` coercion of a JSON-decoded value: ints pass through,
strings are parsed (optional sign, decimal digits), booleans become 0/1,
everything else raises (`none`). -/
def pyInt : JVal → Option Int
  | .num n => some n
  | .boolean b => some (if b then 1 else 0)
  | .str s =>
    let t := (pyStrip s).toList
    let (neg, t1) := match t with
      | '-' :: rest => (true, rest)
      | '+' :: rest => (false, rest)
      | _ => (false, t)
    if t1 ≠ [] && t1.all Char.isDigit then
      let n : Int := Int.ofNat (digitsToNat t1)
      some (if neg then -n else n)
    else none
  | _ => none

/-- Lookup in a Python-dict model (first binding wins). -/
def dictGet (k : String) (d : List (String × JVal)) : Option JVal :=
  List.lookup k d

/-- Key removal in a Python-dict model, modelling `dict.pop`. -/
def dictRemove (k : String) (d : List (String × JVal)) : List (String × JVal) :=
  d.filter (fun kv => kv.1 ≠ k)

/-- Key-alias renaming step of `_normalize_action`: when `src` is present and
`dst` is not, pop `src` and append its value under `dst`. -/
def renameKey (src dst : String) (d : List (String × JVal)) : List (String × JVal) :=
  if (dictGet src d).isSome && !(dictGet dst d).isSome then
    dictSet dst ((dictGet src d).getD JVal.null) (dictRemove src d)
  else d

/-- The allowed action keys (`ALLOWED_ACTIONS` in the source). -/
def allowedActions : List String :=
  ["click", "type", "scroll", "wait", "goback", "google", "answer"]

/-- Embeds `_normalize_action`: normalize a JSON object to the environment's
action schema, rejecting (`none`) anything invalid or unsupported. -/
def normalize_action (v : JVal) : Option ActionDict :=
  match v with
  | .obj kvs =>
    let d0 := kvs.foldl (fun acc kv => dictSet (strLower kv.1) kv.2 acc) []
    let d1 := renameKey "action" "action_key" d0
    let d2 := renameKey "idx" "element" d1
    let d3 := renameKey "number" "element" d2
    let d4 := renameKey "direction" "content" d3
    let d := renameKey "answer" "answer_content" d4
    let akey := strLower (match dictGet "action_key" d with
      | some av => pyStr av
      | none => "")
    if !(allowedActions.contains akey) then none
    else if akey = "click" then
      match dictGet "element" d with
      | none => none
      | some ev =>
        match pyInt ev with
        | none => none
        | some n => some [("action_key", AVal.s "click"), ("element", AVal.i n)]
    else if akey = "type" then
      match dictGet "element" d with
      | none => none
      | some ev =>
        match pyInt ev with
        | none => none
        | some n =>
          let content := match dictGet "content" d with
            | some cv => pyStr cv
            | none => ""
          some [("action_key", AVal.s "type"), ("element", AVal.i n),
                ("content", AVal.s content)]
    else if akey = "scroll" then
      let elem : Option Int :=
        match dictGet "element" d with
        | some (.str s) =>
          if strLower s = "window" then some (-1) else pyInt (.str s)
        | some ev => pyInt ev
        | none => none
      match elem with
      | none => none
      | some e =>
        let direction := strLower (match dictGet "content" d with
          | some cv => pyStr cv
          | none => "")
        if direction = "up" || direction = "down" then
          some [("action_key", AVal.s "scroll"), ("element", AVal.i e),
                ("content", AVal.s direction)]
        else none
    else if akey = "wait" || akey = "goback" || akey = "google" then
      some [("action_key", AVal.s akey)]
    else if akey = "answer" then
      let ans := pyStrip (match dictGet "answer_content" d with
        | some av => pyStr av
        | none => "")
      if ans = "" then none
      else some [("action_key", AVal.s "answer"), ("answer_content", AVal.s ans)]
    else none
  | _ => none

/-- Drop leading regex whitespace (`\s*`). -/
def dropWs (cs : List Char) : List Char :=
  cs.dropWhile Char.isWhitespace

/-- Consume a case-insensitive literal keyword, returning the remainder. -/
def matchCIChars : List Char → List Char → Option (List Char)
  | [], rest => some rest
  | _ :: _, [] => none
  | k :: ks, c :: rest => if k.toLower = c.toLower then matchCIChars ks rest else none

/-- Split off a leading run of ASCII digits. -/
def takeDigits (cs : List Char) : List Char × List Char :=
  (cs.takeWhile Char.isDigit, cs.dropWhile Char.isDigit)

/-- Matcher for the `Click [n]` pattern of `_fallback_parse`
(`^click\s*\[\s*(\d+)\s*\]$`, case-insensitive, on the stripped payload). -/
def parseClick (cs0 : List Char) : Option ActionDict :=
  match matchCIChars "click".toList cs0 with
  | none => none
  | some r1 =>
    match dropWs r1 with
    | '[' :: r3 =>
      let (ds, r5) := takeDigits (dropWs r3)
      if ds = [] then none
      else
        match dropWs r5 with
        | ']' :: r7 =>
          if r7 = [] then
            some [("action_key", AVal.s "click"), ("element", AVal.i (Int.ofNat (digitsToNat ds)))]
          else none
        | _ => none
    | _ => none

/-- Matcher for the legacy `Type [n]; [text]` pattern
(`^type\s*\[\s*(\d+)\s*\]\s*;\s*\[(.*?)\]$` with `DOTALL`): the lazy group
with the end anchor forces the content to run to the final `]`, which must be
the last character of the stripped payload. -/
def parseType (cs0 : List Char) : Option ActionDict :=
  match matchCIChars "type".toList cs0 with
  | none => none
  | some r1 =>
    match dropWs r1 with
    | '[' :: r3 =>
      let (ds, r5) := takeDigits (dropWs r3)
      if ds = [] then none
      else
        match dropWs r5 with
        | ']' :: r7 =>
          (match dropWs r7 with
           | ';' :: r9 =>
             (match dropWs r9 with
              | '[' :: r11 =>
                if r11 ≠ [] && r11.getLast? = some ']' then
                  some [("action_key", AVal.s "type"),
                        ("element", AVal.i (Int.ofNat (digitsToNat ds))),
                        ("content", AVal.s (pyStrip (String.mk r11.dropLast)))]
                else none
              | _ => none)
           | _ => none)
        | _ => none
    | _ => none

/-- Final segment of the `Scroll` pattern: the literal `]` closing the
direction bracket, anchored at the end of the payload. -/
def parseScrollDirTail (elem : Int) (dir : String) (r12 : List Char) : Option ActionDict :=
  match r12 with
  | ']' :: r13 =>
    if r13 = [] then
      some [("action_key", AVal.s "scroll"), ("element", AVal.i elem),
            ("content", AVal.s dir)]
    else none
  | _ => none

/-- Segment of the `Scroll` pattern after the element bracket's content
(`\s*\]\s*;\s*\[(up|down)\]$`; the regex alternation is equivalent to this
ordered attempt because `up` and `down` start with distinct letters). -/
def parseScrollBracket (elem : Int) (r5 : List Char) : Option ActionDict :=
  match dropWs r5 with
  | ']' :: r7 =>
    (match dropWs r7 with
     | ';' :: r9 =>
       (match dropWs r9 with
        | '[' :: r11 =>
          (match matchCIChars "up".toList r11 with
           | some ru => parseScrollDirTail elem "up" ru
           | none =>
             match matchCIChars "down".toList r11 with
             | some rd => parseScrollDirTail elem "down" rd
             | none => none)
        | _ => none)
     | _ => none)
  | _ => none

/-- Matcher for the legacy `Scroll [WINDOW|n]; [up|down]` pattern
(`^scroll\s*\[\s*(window|\d+)\s*\]\s*;\s*\[(up|down)\]$`, case-insensitive;
the `window|\d+` alternation is equivalent to this ordered attempt because a
digit run can never start with `w`). -/
def parseScroll (cs0 : List Char) : Option ActionDict :=
  match matchCIChars "scroll".toList cs0 with
  | none => none
  | some r1 =>
    match dropWs r1 with
    | '[' :: r3 =>
      (match matchCIChars "window".toList (dropWs r3) with
       | some rw => parseScrollBracket (-1) rw
       | none =>
         let (ds, r5) := takeDigits (dropWs r3)
         if ds = [] then none
         else parseScrollBracket (Int.ofNat (digitsToNat ds)) r5)
    | _ => none

/-- Matcher for the bare keyword patterns of `_fallback_parse`
(`re.fullmatch` on the stripped payload, case-insensitive). -/
def parseBareKeyword (kw : String) (cs0 : List Char) : Option ActionDict :=
  match matchCIChars kw.toList cs0 with
  | some [] => some [("action_key", AVal.s kw)]
  | _ => none

/-- Matcher for the legacy `ANSWER; [text]` pattern
(`^answer\s*;\s*\[(.*?)\]$` with `DOTALL`; same end-anchor argument as for
`parseType`). -/
def parseAnswer (cs0 : List Char) : Option ActionDict :=
  match matchCIChars "answer".toList cs0 with
  | none => none
  | some r1 =>
    match dropWs r1 with
    | ';' :: r3 =>
      (match dropWs r3 with
       | '[' :: r5 =>
         if r5 ≠ [] && r5.getLast? = some ']' then
           some [("action_key", AVal.s "answer"),
                 ("answer_content", AVal.s (pyStrip (String.mk r5.dropLast)))]
         else none
       | _ => none)
    | _ => none

/-- Embeds `_fallback_parse`: the ordered concise command formats, first
match wins, on the stripped payload. -/
def fallback_parse (s : String) : Option ActionDict :=
  let cs0 := (pyStrip s).toList
  match parseClick cs0 with
  | some a => some a
  | none =>
    match parseType cs0 with
    | some a => some a
    | none =>
      match parseScroll cs0 with
      | some a => some a
      | none =>
        match parseBareKeyword "wait" cs0 with
        | some a => some a
        | none =>
          match parseBareKeyword "goback" cs0 with
          | some a => some a
          | none =>
            match parseBareKeyword "google" cs0 with
            | some a => some a
            | none => parseAnswer cs0

/-- The parsing pipeline `webvoyager_projection` applies to a non-empty
extracted payload: JSON first (through `_normalize_action`), then the concise
fallback formats. -/
def parse_payload (payload : String) : Option ActionDict :=
  let norm0 := match parse_json_like payload with
    | some o => normalize_action o
    | none => none
  match norm0 with
  | some n => some n
  | none => fallback_parse payload

/-- Per-input body of the `webvoyager_projection` loop: extract the
`<action>` payload (missing payload yields `wait` and an invalid flag with no
further checks), parse it (failure yields `wait` and an invalid flag), then
AND the two compliance checks on the original text into the validity flag. -/
def projOne (raw : String) : ActionDict × Nat :=
  let payload := extract_action_block raw
  if payload = "" then (waitDict, 0)
  else
    let (norm, v0) : ActionDict × Nat := match parse_payload payload with
      | some n => (n, 1)
      | none => (waitDict, 0)
    let v1 := if has_think_block raw then v0 else 0
    let v2 := if contains_chinese raw then 0 else v1
    (norm, v2)

/-- Embeds `webvoyager_projection`: the loop appending one normalized action
and one validity flag per raw input, in input order. -/
def webvoyager_projection : List String → List ActionDict × List Nat
  | [] => ([], [])
  | raw :: rest =>
    let (d, v) := projOne raw
    let (ds, vs) := webvoyager_projection rest
    (d :: ds, v :: vs)

/-! Part 2: the conversation history store (`WebVoyagerMemory`).

Stored records are Python dicts; the values the claims exercise are strings
(observation text, action text, image paths), so a record is modelled as an
association list `List (String × String)` with `rec.get` as first-match
lookup.  A message content block is either a text block or an
image-reference block (the only two `type`s the source constructs). -/

/-- One stored history record for one environment instance. -/
abbrev HRec : Type := List (String × String)

/-- Models `rec.get(k)` on a stored record. -/
def recGet (k : String) (r : HRec) : Option String :=
  List.lookup k r

/-- Python truthiness of an optional string field (`None` and `""` falsy). -/
def truthy : Option String → Bool
  | some s => s ≠ ""
  | none => false

/-- Message content blocks: `{'type': 'text', ...}` or `{'type': 'image',
'source': {'type': 'path', 'path': ...}}`. -/
inductive Block where
  | text : String → Block
  | image : String → Block
deriving DecidableEq, Repr

/-- A role-tagged message (`role` is the `'user'`/`'assistant'` string the
source compares against). -/
structure Message where
  role : String
  content : List Block
deriving DecidableEq, Repr

/-- State of a `WebVoyagerMemory` instance after `reset`: per-instance logs,
the locked record field list, and the batch size. -/
structure WVMemory where
  data : List (List HRec)
  keys : Option (List String)
  batchSize : Nat
deriving DecidableEq, Repr

/-- A freshly constructed memory (before any `reset`). -/
def emptyWV : WVMemory :=
  { data := [], keys := none, batchSize := 0 }

/-- Embeds `WebVoyagerMemory.reset`: allocate `batchSize` empty logs and
clear the locked field list. -/
def resetMem (_st : WVMemory) (batchSize : Nat) : WVMemory :=
  { data := List.replicate batchSize [], keys := none, batchSize := batchSize }

/-- Builds the per-instance record `{k: record[k][env_idx] for k in keys}`
left to right; `none` models the `KeyError`/`IndexError` exceptions. -/
def buildEnvRecord (ks : List String) (record : List (String × List String))
    (env : Nat) : Option HRec :=
  match ks with
  | [] => some []
  | k :: rest =>
    match ((List.lookup k record).getD []).get? env with
    | none => none
    | some v =>
      match buildEnvRecord rest record env with
      | none => none
      | some tl => some ((k, v) :: tl)

/-- The `for env_idx in range(batch_size)` append loop of `store`: appends
one record per instance in index order; an exception (`false`) aborts the
loop, keeping the appends already performed (Python mutates in place). -/
def storeLoop (ks : List String) (record : List (String × List String)) :
    Nat → Nat → List (List HRec) → Bool × List (List HRec)
  | 0, _, data => (true, data)
  | fuel + 1, idx, data =>
    match data.get? idx, buildEnvRecord ks record idx with
    | some l, some r => storeLoop ks record fuel (idx + 1) (data.set idx (l ++ [r]))
    | _, _ => (false, data)

/-- Embeds `WebVoyagerMemory.store`: lock the field list on the first call
after a reset, assert later calls use the same field list (an assertion
failure returns `false` with the state unchanged), then append one record
per instance. -/
def storeMem (st : WVMemory) (record : List (String × List String)) :
    Bool × WVMemory :=
  let recordKeys := record.map Prod.fst
  match st.keys with
  | none =>
    let (ok, d) := storeLoop recordKeys record st.batchSize 0 st.data
    (ok, { st with keys := some recordKeys, data := d })
  | some ks =>
    if ks = recordKeys then
      let (ok, d) := storeLoop ks record st.batchSize 0 st.data
      (ok, { st with data := d })
    else (false, st)

/-- Python list slicing `l[s:]` (negative start counts from the end; this is
what makes `l[-0:]` the whole list). -/
def pySliceFrom (s : Int) (l : List α) : List α :=
  if s < 0 then l.drop (l.length - (-s).toNat)
  else l.drop s.toNat

/-- One rendered line of `fetch`:
`f"[Observation {step_num}: '{obs}', Action {step_num}: '{act}']"`. -/
def fetchLineOf (obsKey actionKey : String) (stepNum : Nat) (rec : HRec) : String :=
  "[Observation " ++ toString stepNum ++ ": " ++ String.singleton '\'' ++
    ((recGet obsKey rec).getD "") ++ String.singleton '\'' ++
    ", Action " ++ toString stepNum ++ ": " ++ String.singleton '\'' ++
    ((recGet actionKey rec).getD "") ++ String.singleton '\'' ++ "]"

/-- The `for j, rec in enumerate(recent)` loop of `fetch`, threading the
absolute step counter. -/
def fetchLines (obsKey actionKey : String) : Nat → List HRec → List String
  | _, [] => []
  | startIdx, rec :: rest =>
    fetchLineOf obsKey actionKey (startIdx + 1) rec
      :: fetchLines obsKey actionKey (startIdx + 1) rest

/-- Per-instance body of `WebVoyagerMemory.fetch`: slice the last
`historyLength` records Python-style, render one line per record with
absolute step numbers, join with newlines, and report the slice length. -/
def fetchEnv (recs : List HRec) (historyLength : Int) (obsKey actionKey : String) :
    String × Nat :=
  let recent := pySliceFrom (-historyLength) recs
  let validLen := recent.length
  let startIdx := recs.length - validLen
  (String.intercalate "\n" (fetchLines obsKey actionKey startIdx recent), validLen)

/-- Embeds `WebVoyagerMemory.fetch` over the whole batch. -/
def fetchMem (st : WVMemory) (historyLength : Int) (obsKey actionKey : String) :
    List String × List Nat :=
  let pairs := (List.range st.batchSize).map
    (fun env => fetchEnv ((st.data.get? env).getD []) historyLength obsKey actionKey)
  (pairs.map Prod.fst, pairs.map Prod.snd)

/-- The placeholder `build_message_history` substitutes for older user
observations. -/
def OMITTED_TEXT : String :=
  "Observation omitted for previous steps. See attachment for screenshot."

/-- The helper suffix removed from a message when its image is clipped. -/
def HINT_TEXT : String := "See attachment for screenshot."

/-- Text rewrite of the first pass of `_clip_messages_like_env`. -/
def rewriteUserText (t : String) : String :=
  if containsStr t "Observation omitted for previous steps." then t
  else if containsStr t "Now solve the following task." then
    match strFindIdx "Screenshot of current viewpoint:" t with
    | some i => String.mk (t.toList.take i) ++ OMITTED_TEXT
    | none => OMITTED_TEXT
  else OMITTED_TEXT

/-- Apply the first-pass rewrite to a text block, leave other blocks. -/
def rewriteBlock : Block → Block
  | Block.text t => Block.text (rewriteUserText t)
  | b => b

/-- First pass of `_clip_messages_like_env` on one message: rewrite every
text block of a user message. -/
def rewriteMsg (m : Message) : Message :=
  if m.role = "user" then { m with content := m.content.map rewriteBlock } else m

/-- Number of image blocks in one message's content. -/
def blockIsImage : Block → Bool
  | Block.image _ => true
  | Block.text _ => false

/-- Image-block count of a message. -/
def msgImageCount (m : Message) : Nat :=
  (m.content.filter blockIsImage).length

/-- Image count over user messages only, as the first pass tallies it. -/
def userImageCount (msgs : List Message) : Nat :=
  (msgs.map (fun m => if m.role = "user" then msgImageCount m else 0)).sum

/-- Cleanup applied after each image deletion: remove the helper suffix from
the leading text block, if the leading block is a text block
(`content[0]['text'].replace(...).strip()`). -/
def stripHeadHint (l : List Block) : List Block :=
  match l with
  | Block.text t :: rest => Block.text (pyStrip (pyReplace t HINT_TEXT "")) :: rest
  | other => other

/-- The `while k < len(content)` deletion loop of `_clip_messages_like_env`,
with the processed prefix carried in order in `acc`; deleting an image block
re-examines the same position and strips the helper suffix from the
message's leading block.  Returns the final content and the remaining
deletion budget.  The first argument is structural fuel; every iteration
consumes one element of `rest`, so the call site's fuel (the content length)
is ample and the fuel-exhaustion branch is unreachable there. -/
def clipBlocksGo : Nat → Nat → List Block → List Block → List Block × Nat
  | _, toRemove, acc, [] => (acc, toRemove)
  | 0, toRemove, acc, rest => (acc ++ rest, toRemove)
  | fuel + 1, toRemove, acc, b :: bs =>
    if toRemove = 0 then (acc ++ b :: bs, 0)
    else
      match b with
      | Block.text t => clipBlocksGo fuel toRemove (acc ++ [Block.text t]) bs
      | Block.image _ =>
        if acc = [] then clipBlocksGo fuel (toRemove - 1) [] (stripHeadHint bs)
        else clipBlocksGo fuel (toRemove - 1) (stripHeadHint acc) bs

/-- The second-pass message loop of `_clip_messages_like_env`: skip
non-user messages, thread the deletion budget, stop once it reaches zero. -/
def clipMsgsGo (toRemove : Nat) : List Message → List Message
  | [] => []
  | m :: rest =>
    if toRemove = 0 then m :: rest
    else if m.role ≠ "user" then m :: clipMsgsGo toRemove rest
    else
      let cr := clipBlocksGo m.content.length toRemove [] m.content
      { m with content := cr.1 } :: clipMsgsGo cr.2 rest

/-- Embeds `_clip_messages_like_env`: rewrite user texts to the omitted
placeholder, then delete the oldest images beyond `maxImages`, cleaning the
helper suffix on each deletion. -/
def clip_messages_like_env (msgs : List Message) (maxImages : Nat) : List Message :=
  let rewritten := msgs.map rewriteMsg
  let imgCount := userImageCount rewritten
  if imgCount > maxImages then clipMsgsGo (imgCount - maxImages) rewritten else rewritten

/-- Index of the last user message (the backward scan of the source). -/
def lastUserIdx (msgs : List Message) : Option Nat :=
  match msgs.reverse.findIdx? (fun m => m.role == "user") with
  | some j => some (msgs.length - 1 - j)
  | none => none

/-- Index of the nearest assistant message strictly before index `lu` (the
backward scan of the answer-guard). -/
def nearestAssistantBefore (msgs : List Message) (lu : Nat) : Option Nat :=
  match (msgs.take lu).reverse.findIdx? (fun m => m.role == "assistant") with
  | some j => some (lu - 1 - j)
  | none => none

/-- The answer-submission marker test of the source (single-line or
line-broken form). -/
def hasAnswerMarker (t : String) : Bool :=
  containsStr t "Action: ANSWER" || containsStr t "Action:\nANSWER"

/-- The double-check reminder paragraph appended after an answer. -/
def REMINDER_TEXT : String :=
  "\n\nImportant: You returned an answer in the last step. Let's pause, " ++
  "check the web page, and think again. If you still think the task is " ++
  "finished, double-check your answer, revise it if need, and return a final " ++
  "answer. If not, continue the task."

/-- Append `tail` to the leading text block of message `lu`, when that
message exists and its leading block is a text block (otherwise no-op, as in
the source's guarded mutation). -/
def appendToLastUserText (msgs : List Message) (lu : Nat) (tail : String) :
    List Message :=
  match msgs.get? lu with
  | some m =>
    (match m.content with
     | Block.text t :: rest => msgs.set lu { m with content := Block.text (t ++ tail) :: rest }
     | _ => msgs)
  | none => msgs

/-- Embeds the ANSWER double-check guard of `build_message_history`: find the
last user message, examine only the nearest preceding assistant message, and
append the reminder when its leading text contains the answer marker. -/
def injectAnswerGuard (msgs : List Message) : List Message :=
  if msgs = [] then msgs
  else
    match lastUserIdx msgs with
    | none => msgs
    | some lu =>
      match nearestAssistantBefore msgs lu with
      | none => msgs
      | some j =>
        let blocks := ((msgs.get? j).map Message.content).getD []
        let atb := match blocks with
          | Block.text t :: _ => t
          | _ => ""
        if hasAnswerMarker atb then appendToLastUserText msgs lu REMINDER_TEXT
        else msgs

/-- Message construction of `build_message_history` for one record: an
assistant message when `assistant_text` is truthy, then the user message with
the observation text and the optional image reference. -/
def messagesOfRecord (rec : HRec) : List Message :=
  (match recGet "assistant_text" rec with
   | some s => if s ≠ "" then [{ role := "assistant", content := [Block.text s] }] else []
   | none => []) ++
  [{ role := "user",
     content := [Block.text ((recGet "user_text" rec).getD "")] ++
       (match recGet "image_path" rec with
        | some p => if p ≠ "" then [Block.image p] else []
        | none => []) }]

/-- All raw messages of one instance, in chronological record order. -/
def rawMessages (recs : List HRec) : List Message :=
  recs.flatMap messagesOfRecord

/-- The windowing/compression/clipping phase of `build_message_history` for
one instance (everything before the answer-guard): preserve the latest user
message, clip the earlier history to the remaining image budget. -/
def clippedMessages (recs : List HRec) (maxImages : Nat) : List Message :=
  let messages := rawMessages recs
  if messages.length > 0 then
    match lastUserIdx messages with
    | some i =>
      if i > 0 then
        let latestImages := match messages.get? i with
          | some m => if m.role = "user" then msgImageCount m else 0
          | none => 0
        clip_messages_like_env (messages.take i) (maxImages - latestImages)
          ++ messages.drop i
      else clip_messages_like_env messages maxImages
    | none => clip_messages_like_env messages maxImages
  else messages

/-- Embeds `build_message_history` for one environment instance. -/
def buildEnvMessages (recs : List HRec) (maxImages : Nat) : List Message :=
  injectAnswerGuard (clippedMessages recs maxImages)

/-- Embeds `WebVoyagerMemory.build_message_history` over the whole batch
(the `history_length` parameter is accepted and, as in the source, unused). -/
def build_message_history (st : WVMemory) (_historyLength : Nat) (maxImages : Nat) :
    List (List Message) :=
  (List.range st.batchSize).map
    (fun env => buildEnvMessages ((st.data.get? env).getD []) maxImages)

/-- Image path carried by a block, if any. -/
def blockImagePath : Block → Option String
  | Block.image p => some p
  | Block.text _ => none

/-- Image paths of one message, in block order. -/
def msgImagePaths (m : Message) : List String :=
  m.content.filterMap blockImagePath

/-- Image paths across a message list, in chronological order. -/
def imagePaths (msgs : List Message) : List String :=
  msgs.flatMap msgImagePaths

/-- Truthy image paths of the stored records, in chronological order: the
image references the raw (unclipped) reconstruction would carry. -/
def recordImagePaths (recs : List HRec) : List String :=
  recs.filterMap (fun r =>
    match recGet "image_path" r with
    | some p => if p ≠ "" then some p else none
    | none => none)

/-- Run a sequence of `store` calls, counting the successful ones (a failed
assertion leaves the state unchanged and is not counted). -/
def runStores : WVMemory → List (List (String × List String)) → WVMemory × Nat
  | st, [] => (st, 0)
  | st, r :: rs =>
    let (ok, st1) := storeMem st r
    let (stf, n) := runStores st1 rs
    (stf, (if ok then 1 else 0) + n)

/-- The action-dictionary shapes the spec's data model allows: exactly one of
the seven variants, with every required field present and typed (the
`element` index an integer, the scroll `content` one of `up`/`down`). -/
def wellFormedAction (d : ActionDict) : Prop :=
  d = [("action_key", AVal.s "wait")] ∨
  d = [("action_key", AVal.s "goback")] ∨
  d = [("action_key", AVal.s "google")] ∨
  (∃ n : Int, d = [("action_key", AVal.s "click"), ("element", AVal.i n)]) ∨
  (∃ (n : Int) (c : String),
    d = [("action_key", AVal.s "type"), ("element", AVal.i n), ("content", AVal.s c)]) ∨
  (∃ (n : Int) (dir : String), (dir = "up" ∨ dir = "down") ∧
    d = [("action_key", AVal.s "scroll"), ("element", AVal.i n), ("content", AVal.s dir)]) ∨
  (∃ a : String, d = [("action_key", AVal.s "answer"), ("answer_content", AVal.s a)])

/-- Leading text of the nearest assistant message strictly before the last
user message, the only text the answer-guard ever examines. -/
def nearestAssistantLeadText (msgs : List Message) : Option String :=
  match lastUserIdx msgs with
  | none => none
  | some lu =>
    match nearestAssistantBefore msgs lu with
    | none => none
    | some j =>
      some (match ((msgs.get? j).map Message.content).getD [] with
        | Block.text t :: _ => t
        | _ => "")

/-- Append the double-check reminder to the leading text block of the final
message of the list (the clean description of what the guard's mutation
does when it fires). -/
def appendReminderLast (msgs : List Message) : List Message :=
  match msgs.getLast? with
  | some m =>
    (match m.content with
     | Block.text t :: rest =>
       msgs.dropLast ++ [{ m with content := Block.text (t ++ REMINDER_TEXT) :: rest }]
     | _ => msgs)
  | none => msgs

/-- Shape invariant of the messages `build_message_history` constructs: an
assistant message is a single text block; a user message is a text block
optionally followed by one image block. -/
def shapedMsg (m : Message) : Prop :=
  (m.role = "assistant" ∧ ∃ t, m.content = [Block.text t]) ∨
  (m.role = "user" ∧ ((∃ t, m.content = [Block.text t]) ∨
    (∃ t p, m.content = [Block.text t, Block.image p])))

/-- Relation between a message of the rewritten first pass and its final
image-clipped form: either untouched, or a user message whose single trailing
image block was deleted, stripping the helper hint suffix from its text. -/
def clipRel (m m2 : Message) : Prop :=
  m2 = m ∨
  (m.role = "user" ∧ ∃ t p, m.content = [Block.text t, Block.image p] ∧
    m2 = ⟨"user", [Block.text (pyStrip (pyReplace t HINT_TEXT ""))]⟩)

/-! Helper lemmas for the parser claims. -/

set_option maxHeartbeats 1000000
set_option maxRecDepth 8192

theorem parseClick_wf (cs : List Char) (a : ActionDict) (h : parseClick cs = some a) :
    wellFormedAction a := by
  unfold parseClick at h
  repeat' split at h
  all_goals simp_all
  exact Or.inr (Or.inr (Or.inr (Or.inl ⟨_, h.symm⟩)))

theorem parseType_wf (cs : List Char) (a : ActionDict) (h : parseType cs = some a) :
    wellFormedAction a := by
  unfold parseType at h
  repeat' split at h
  all_goals simp_all
  exact Or.inr (Or.inr (Or.inr (Or.inr (Or.inl ⟨_, _, h.symm⟩))))

theorem parseScrollDirTail_wf (elem : Int) (dir : String) (r12 : List Char)
    (a : ActionDict) (hdir : dir = "up" ∨ dir = "down")
    (h : parseScrollDirTail elem dir r12 = some a) : wellFormedAction a := by
  unfold parseScrollDirTail at h
  repeat' split at h
  all_goals simp_all
  exact Or.inr (Or.inr (Or.inr (Or.inr (Or.inr (Or.inl ⟨_, _, hdir, h.symm⟩)))))

theorem parseScrollBracket_wf (elem : Int) (r5 : List Char) (a : ActionDict)
    (h : parseScrollBracket elem r5 = some a) : wellFormedAction a := by
  unfold parseScrollBracket at h
  repeat' split at h
  all_goals simp_all
  · exact parseScrollDirTail_wf _ _ _ _ (Or.inl rfl) h
  · exact parseScrollDirTail_wf _ _ _ _ (Or.inr rfl) h

theorem parseScroll_wf (cs : List Char) (a : ActionDict)
    (h : parseScroll cs = some a) : wellFormedAction a := by
  unfold parseScroll at h
  repeat' split at h
  all_goals simp_all
  · exact parseScrollBracket_wf _ _ _ h
  · exact parseScrollBracket_wf _ _ _ h

theorem parseBareKeyword_wf (kw : String) (cs : List Char) (a : ActionDict)
    (hkw : kw = "wait" ∨ kw = "goback" ∨ kw = "google")
    (h : parseBareKeyword kw cs = some a) : wellFormedAction a := by
  unfold parseBareKeyword at h
  repeat' split at h
  all_goals simp_all
  rcases hkw with rfl | rfl | rfl
  · exact Or.inl h.symm
  · exact Or.inr (Or.inl h.symm)
  · exact Or.inr (Or.inr (Or.inl h.symm))

theorem parseAnswer_wf (cs : List Char) (a : ActionDict)
    (h : parseAnswer cs = some a) : wellFormedAction a := by
  unfold parseAnswer at h
  repeat' split at h
  all_goals simp_all
  exact Or.inr (Or.inr (Or.inr (Or.inr (Or.inr (Or.inr ⟨_, h.symm⟩)))))

theorem fallback_parse_wf (s : String) (a : ActionDict)
    (h : fallback_parse s = some a) : wellFormedAction a := by
  simp only [fallback_parse] at h
  repeat' split at h
  all_goals simp_all
  · exact parseClick_wf _ _ (by assumption)
  · exact parseType_wf _ _ (by assumption)
  · exact parseScroll_wf _ _ (by assumption)
  · exact parseBareKeyword_wf _ _ _ (Or.inl rfl) (by assumption)
  · exact parseBareKeyword_wf _ _ _ (Or.inr (Or.inl rfl)) (by assumption)
  · exact parseBareKeyword_wf _ _ _ (Or.inr (Or.inr rfl)) (by assumption)
  · exact parseAnswer_wf _ _ h

theorem normalize_action_wf (o : JVal) (a : ActionDict)
    (h : normalize_action o = some a) : wellFormedAction a := by
  cases o
  case obj kvs =>
    simp only [normalize_action] at h
    repeat' split at h
    all_goals (try exact Option.noConfusion h)
    all_goals (replace h := (Option.some.inj h).symm; subst h)
    all_goals
      first
      | exact Or.inr (Or.inr (Or.inr (Or.inl ⟨_, rfl⟩)))
      | exact Or.inr (Or.inr (Or.inr (Or.inr (Or.inl ⟨_, _, rfl⟩))))
      | exact Or.inr (Or.inr (Or.inr (Or.inr (Or.inr (Or.inr ⟨_, rfl⟩)))))
      | exact Or.inr (Or.inr (Or.inr (Or.inr (Or.inr (Or.inl ⟨_, _, by simp_all, rfl⟩)))))
      | (simp only [Bool.or_eq_true, decide_eq_true_eq] at *
         casesm* _ ∨ _ <;>
           simp_all <;>
           first
           | exact Or.inl rfl
           | exact Or.inr (Or.inl rfl)
           | exact Or.inr (Or.inr (Or.inl rfl)))
  all_goals exact Option.noConfusion h

theorem normalize_action_answer_ne_empty (o : JVal) (s : String)
    (h : normalize_action o =
      some [("action_key", AVal.s "answer"), ("answer_content", AVal.s s)]) :
    s ≠ "" := by
  cases o
  case obj kvs =>
    simp only [normalize_action] at h
    repeat' split at h
    all_goals (try exact Option.noConfusion h)
    all_goals simp at h
    all_goals simp_all
  all_goals exact Option.noConfusion h

theorem parse_payload_wf (p : String) (a : ActionDict)
    (h : parse_payload p = some a) : wellFormedAction a := by
  simp only [parse_payload] at h
  split at h
  · rename_i n heq
    replace h := Option.some.inj h
    subst h
    split at heq
    · exact normalize_action_wf _ _ heq
    · exact Option.noConfusion heq
  · exact fallback_parse_wf _ _ h

/-! Claim theorems for the action-grammar parser. -/

/-- Claim C1: `webvoyager_projection` returns exactly one (action, validity)
pair per input, in input order (it equals the pointwise projection of each
raw text), and any input whose action payload cannot be extracted, or whose
extracted payload matches no supported format, yields the default
`{action_key: wait}` action with validity flag 0.  Totality of the Lean
functions models the "never raises" part of the contract. -/
theorem c1_projection_per_input :
    (∀ raws : List String,
      webvoyager_projection raws =
        ((raws.map projOne).map Prod.fst, (raws.map projOne).map Prod.snd))
    ∧ (∀ raw : String,
        extract_action_block raw = "" ∨ parse_payload (extract_action_block raw) = none →
        projOne raw = (waitDict, 0)) := by
  constructor
  · intro raws
    induction raws with
    | nil => simp [webvoyager_projection]
    | cons raw rest ih => simp [webvoyager_projection, ih]
  · intro raw h
    rcases h with h | h
    · simp [projOne, h]
    · by_cases hp : extract_action_block raw = ""
      · simp [projOne, hp]
      · simp only [projOne, if_neg hp, h]
        by_cases ht : has_think_block raw <;> by_cases hc : contains_chinese raw <;>
          simp [ht, hc]

/-- Witness for C1 at a concrete malformed input: a text with no action
payload yields the `wait` action with validity 0. -/
theorem c1_projection_per_input_witness :
    projOne "I will just think about it." = (waitDict, 0) :=
  c1_projection_per_input.2 "I will just think about it." (Or.inl (by decide))

/-- Claim C4 (code bug): the repository's own test suite
(`tests/test_webvoyager_projection.py`) expects the `Action:`-labelled
single-bracket forms `Type [22] [Boston]`, `Scroll [down]` and
`ANSWER [06516]` to parse with validity 1, but the checked-in projection
only extracts `<action>...</action>` blocks and only parses the legacy
semicolon forms, so all three test inputs fall through to the default
`wait` action with validity 0. -/
theorem c4_label_forms_unsupported :
    webvoyager_projection
      ["Thought: Enter the city directly in the search box.\nAction: Type [22] [Boston]",
       "Thought: Scroll to reveal more content.\nAction: Scroll [down]",
       "Thought: We have the final answer.\nAction: ANSWER [06516]"] =
      ([waitDict, waitDict, waitDict], [0, 0, 0]) := by
  decide

/-- Claim C5: when the extracted payload parses successfully, the returned
action is exactly the parsed action, and the validity flag is 1 precisely
when the original text has a think block and no CJK ideographs — compliance
failures zero the validity bit but never change the action. -/
theorem c5_compliance_orthogonal :
    ∀ (raw : String) (a : ActionDict),
      extract_action_block raw ≠ "" →
      parse_payload (extract_action_block raw) = some a →
      projOne raw =
        (a, if has_think_block raw && !contains_chinese raw then 1 else 0) := by
  intro raw a hne hp
  simp only [projOne, if_neg hne, hp]
  by_cases ht : has_think_block raw <;> by_cases hc : contains_chinese raw <;>
    simp [ht, hc]

/-- Witness for C5 at a concrete input: a parseable action without a think
block comes back unchanged with validity 0. -/
theorem c5_compliance_orthogonal_witness :
    projOne "<action>GoBack</action>" = ([("action_key", AVal.s "goback")], 0) := by
  have h := c5_compliance_orthogonal "<action>GoBack</action>"
    [("action_key", AVal.s "goback")] (by decide) (by decide)
  exact h.trans (by decide)

/-- Claim C9 counterexample: the legacy fallback form `ANSWER; []` produces
an answer action whose `answer_content` is the empty string (with validity
1), refuting the claim that every returned answer action carries a
non-empty `answer_content`. -/
theorem c9_empty_answer_content_cex :
    webvoyager_projection ["<think>t</think><action>ANSWER; []</action>"] =
      ([[("action_key", AVal.s "answer"), ("answer_content", AVal.s "")]], [1]) := by
  decide

/-- Claim C9 as amended: every action the projection returns is exactly one
of the seven variants with all required fields present and typed; an answer
action produced through the JSON-object path always carries a non-empty
`answer_content`, while the legacy fallback `ANSWER; [...]` form may carry
an empty one. -/
theorem c9_action_shapes :
    (∀ raw : String, wellFormedAction (projOne raw).1)
    ∧ (∀ (o : JVal) (s : String),
        normalize_action o =
          some [("action_key", AVal.s "answer"), ("answer_content", AVal.s s)] →
        s ≠ "") := by
  constructor
  · intro raw
    by_cases hp : extract_action_block raw = ""
    · simp [projOne, hp]
      exact Or.inl rfl
    · cases hpp : parse_payload (extract_action_block raw) with
      | some n =>
        have hwf := parse_payload_wf _ _ hpp
        simp only [projOne, if_neg hp, hpp]
        exact hwf
      | none =>
        simp only [projOne, if_neg hp, hpp]
        exact Or.inl rfl
  · exact normalize_action_answer_ne_empty

/-- Witness for C9 as amended: the shape invariant at a concrete raw text,
and non-emptiness for a concrete JSON-path answer. -/
theorem c9_action_shapes_witness :
    wellFormedAction (projOne "<action>Click [7]</action>").1 ∧ ("hi" : String) ≠ "" :=
  ⟨c9_action_shapes.1 "<action>Click [7]</action>",
   c9_action_shapes.2 (JVal.obj [("action_key", JVal.str "answer"),
     ("answer_content", JVal.str "hi")]) "hi" (by decide)⟩

/-! Claim theorems for the conversation history store. -/

/-- Claim C3 (code bug): for a single stored record with no assistant text,
`build_message_history` routes the whole message list through
`_clip_messages_like_env`, which replaces the only — hence most recent —
user message's text with the omitted-observation placeholder, contradicting
the method's own docstring ("The latest user message is always preserved
with its full detailed observation").  Evaluated at the failing input. -/
theorem c3_latest_compressed_single_record :
    buildEnvMessages [[("user_text", "abc")]] 3 =
      [{ role := "user", content := [Block.text OMITTED_TEXT] }]
    ∧ OMITTED_TEXT ≠ "abc" := by
  constructor
  · decide
  · decide

/-- Claim C6 counterexample: with one stored record, `fetch` with
`history_length = 0` slices `data[-0:]`, i.e. the whole log, so the reported
valid length is 1 while the claim's `min(history_length, records)` is 0. -/
theorem c6_zero_history_cex :
    (fetchMem (storeMem (resetMem emptyWV 1)
        [("user_text", ["o"]), ("action", ["a"])]).2 0 "user_text" "action").2 = [1]
    ∧ (1 : Nat) ≠ (min (0 : Int) 1).toNat := by
  decide

theorem pySliceFrom_last {α : Type} (H : Int) (hH : 1 ≤ H) (l : List α) :
    pySliceFrom (-H) l = l.drop (l.length - H.toNat) := by
  unfold pySliceFrom
  rw [if_pos (by omega)]
  simp

theorem fetchLines_range (ok ak : String) : ∀ (l : List HRec) (s0 : Nat),
    fetchLines ok ak s0 l =
      (List.range l.length).map (fun j => fetchLineOf ok ak (s0 + j + 1) (l.getD j [])) := by
  intro l
  induction l with
  | nil => intro s0; simp [fetchLines]
  | cons r tl ih =>
    intro s0
    rw [fetchLines, ih (s0 + 1), List.length_cons, List.range_succ_eq_map, List.map_cons,
      List.map_map]
    congr 1
    apply List.map_congr_left
    intro j hj
    have harith : s0 + 1 + j + 1 = s0 + (j + 1) + 1 := by omega
    simp [Function.comp, List.getD, harith]

/-- Claim C6 as amended (the claim holds for `history_length ≥ 1`; the
counterexample above shows it fails at 0 because of Python's `-0` slice):
for each instance, `fetch` renders exactly `min(history_length, stored)`
lines, the `j`-th line formatted from the record at absolute position
`stored - k + j` and numbered with the absolute 1-indexed step number
continuing from the instance's total record count, and the reported valid
length is that same minimum; the batch `fetch` returns the per-instance
result at each index below the batch size. -/
theorem c6_fetch_window :
    (∀ (recs : List HRec) (H : Int) (ok ak : String), 1 ≤ H →
      fetchEnv recs H ok ak =
        (String.intercalate "\n"
          ((List.range (min H.toNat recs.length)).map (fun j =>
            fetchLineOf ok ak (recs.length - min H.toNat recs.length + j + 1)
              (recs.getD (recs.length - min H.toNat recs.length + j) []))),
         min H.toNat recs.length))
    ∧ (∀ (st : WVMemory) (H : Int) (ok ak : String) (i : Nat), i < st.batchSize →
        (fetchMem st H ok ak).1.get? i =
          some (fetchEnv ((st.data.get? i).getD []) H ok ak).1 ∧
        (fetchMem st H ok ak).2.get? i =
          some (fetchEnv ((st.data.get? i).getD []) H ok ak).2) := by
  constructor
  · intro recs H ok ak hH
    have hlen : (recs.drop (recs.length - H.toNat)).length = min H.toNat recs.length := by
      rw [List.length_drop]
      omega
    have hstart : recs.length - min H.toNat recs.length = recs.length - H.toNat := by
      omega
    simp only [fetchEnv]
    rw [pySliceFrom_last H hH, fetchLines_range, hlen]
    refine Prod.ext (congrArg (String.intercalate "\n") ?_) rfl
    apply List.map_congr_left
    intro j hj
    have hget : (recs.drop (recs.length - H.toNat)).getD j [] =
        recs.getD (recs.length - H.toNat + j) [] := by
      simp [List.getD, List.get?_drop]
    rw [hget, hstart]
  · intro st H ok ak i hi
    constructor <;> simp [fetchMem, List.get?_map, List.get?_range, hi]

/-- Witness for C6 as amended: two stored records fetched with window 1
yield exactly the last record's line, numbered 2; and the batch fetch
exposes the per-instance result. -/
theorem c6_fetch_window_witness :
    fetchEnv [[("user_text", "o1"), ("action", "a1")],
        [("user_text", "o2"), ("action", "a2")]] 1 "user_text" "action" =
      ("[Observation 2: 'o2', Action 2: 'a2']", 1)
    ∧ (fetchMem (storeMem (resetMem emptyWV 1)
        [("user_text", ["o"]), ("action", ["a"])]).2 2 "user_text" "action").2.get? 0 =
        some 1 := by
  constructor
  · exact (c6_fetch_window.1 [[("user_text", "o1"), ("action", "a1")],
      [("user_text", "o2"), ("action", "a2")]] 1 "user_text" "action" (by decide)).trans
      (by decide)
  · exact ((c6_fetch_window.2 (storeMem (resetMem emptyWV 1)
      [("user_text", ["o"]), ("action", ["a"])]).2 2 "user_text" "action" 0
      (by decide)).2).trans (by decide)

/-- Claim C8 counterexample: `reset()` sets the locked field list back to
`None`, so the lock is not for the store's lifetime — after a first store
with field set `{a}` and a reset, a store with the different field set `{b}`
succeeds instead of failing. -/
theorem c8_schema_relock_after_reset_cex :
    (storeMem (resetMem (storeMem (resetMem emptyWV 1) [("a", ["x"])]).2 1)
      [("b", ["y"])]).1 = true
    ∧ (["b"] : List String) ≠ ["a"] := by
  decide

theorem buildEnvRecord_keys :
    ∀ (ks : List String) (record : List (String × List String)) (env : Nat) (r : HRec),
      buildEnvRecord ks record env = some r → r.map Prod.fst = ks := by
  intro ks
  induction ks with
  | nil =>
    intro record env r h
    simp only [buildEnvRecord, Option.some.injEq] at h
    simp [← h]
  | cons k rest ih =>
    intro record env r h
    simp only [buildEnvRecord] at h
    rcases hx : ((List.lookup k record).getD []).get? env with _ | v <;> rw [hx] at h
    · exact Option.noConfusion h
    · rcases hy : buildEnvRecord rest record env with _ | tl <;> rw [hy] at h
      · exact Option.noConfusion h
      · replace h := Option.some.inj h
        subst h
        simp [ih record env tl hy]

/-- Claim C8 as amended (per reset epoch rather than per store lifetime):
the record field list is locked in on the first `store()` call after each
`reset()`; until the next reset, any `store()` whose field list differs from
the locked one fails the assertion before appending anything, leaving the
state unchanged; and an appended per-instance record always carries exactly
the locked field list, so fields are never silently dropped. -/
theorem c8_schema_lock_per_epoch :
    (∀ (st : WVMemory) (ks : List String) (record : List (String × List String)),
      st.keys = some ks → record.map Prod.fst ≠ ks →
      storeMem st record = (false, st))
    ∧ (∀ (st : WVMemory) (record : List (String × List String)),
        st.keys = none → ((storeMem st record).2).keys = some (record.map Prod.fst))
    ∧ (∀ (ks : List String) (record : List (String × List String)) (env : Nat) (r : HRec),
        buildEnvRecord ks record env = some r → r.map Prod.fst = ks) := by
  refine ⟨?_, ?_, buildEnvRecord_keys⟩
  · intro st ks record h1 h2
    simp only [storeMem, h1]
    rw [if_neg (fun he => h2 he.symm)]
  · intro st record h
    simp only [storeMem, h]

/-- Witness for C8 as amended at concrete states: a mismatching second store
fails and leaves the state unchanged; the first store after a reset locks
the field list; a built record carries the locked keys. -/
theorem c8_schema_lock_per_epoch_witness :
    storeMem { data := [[]], keys := some ["a"], batchSize := 1 } [("b", ["y"])] =
      (false, { data := [[]], keys := some ["a"], batchSize := 1 })
    ∧ ((storeMem (resetMem emptyWV 1) [("a", ["x"])]).2).keys = some ["a"]
    ∧ ([("a", "x")] : HRec).map Prod.fst = ["a"] :=
  ⟨c8_schema_lock_per_epoch.1 _ ["a"] [("b", ["y"])] rfl (by decide),
   (c8_schema_lock_per_epoch.2.1 (resetMem emptyWV 1) [("a", ["x"])] rfl).trans (by decide),
   c8_schema_lock_per_epoch.2.2 ["a"] [("a", ["x"])] 0 [("a", "x")] (by decide)⟩

theorem storeLoop_spec (ks : List String) (record : List (String × List String)) :
    ∀ (fuel idx : Nat) (data : List (List HRec)),
      (∀ e, idx ≤ e → e < idx + fuel → (buildEnvRecord ks record e).isSome) →
      idx + fuel ≤ data.length →
      (storeLoop ks record fuel idx data).1 = true ∧
      (storeLoop ks record fuel idx data).2.length = data.length ∧
      (∀ j, (j < idx ∨ idx + fuel ≤ j) →
        (storeLoop ks record fuel idx data).2.get? j = data.get? j) ∧
      (∀ j, idx ≤ j → j < idx + fuel →
        (storeLoop ks record fuel idx data).2.get? j =
          (data.get? j).map (fun l => l ++ [(buildEnvRecord ks record j).getD []])) := by
  intro fuel
  induction fuel with
  | zero =>
    intro idx data _ _
    refine ⟨rfl, rfl, fun j _ => rfl, ?_⟩
    intro j h1 h2
    omega
  | succ fuel ih =>
    intro idx data hsome hlen
    have hidx : idx < data.length := by omega
    have hl : data.get? idx = some (data.get ⟨idx, hidx⟩) := List.get?_eq_get hidx
    have hr0 : (buildEnvRecord ks record idx).isSome := hsome idx (by omega) (by omega)
    obtain ⟨r, hr⟩ := Option.isSome_iff_exists.mp hr0
    simp only [storeLoop, hl, hr]
    set data1 := data.set idx (data.get ⟨idx, hidx⟩ ++ [r]) with hdata1
    have hlen1 : data1.length = data.length := List.length_set data idx _
    have ih1 := ih (idx + 1) data1
      (fun e he1 he2 => hsome e (by omega) (by omega)) (by omega)
    refine ⟨ih1.1, ih1.2.1.trans hlen1, ?_, ?_⟩
    · intro j hj
      have h1 := ih1.2.2.1 j (by omega)
      rw [h1, hdata1, List.get?_set_ne _ _ (by omega)]
    · intro j hj1 hj2
      rcases Nat.eq_or_lt_of_le hj1 with rfl | hjlt
      · have h1 := ih1.2.2.1 idx (Or.inl (by omega))
        rw [h1, hdata1, List.get?_set_eq_of_lt _ hidx, hl, hr]
        simp
      · have h1 := ih1.2.2.2 j (by omega) (by omega)
        rw [h1, hdata1, List.get?_set_ne _ _ (by omega)]

theorem lookup_of_mem_keys :
    ∀ (record : List (String × List String)) (k : String),
      k ∈ record.map Prod.fst →
      ∃ vs, List.lookup k record = some vs ∧ (k, vs) ∈ record := by
  intro record
  induction record with
  | nil => intro k hk; simp at hk
  | cons kv rest ih =>
    intro k hk
    by_cases hke : k = kv.1
    · subst hke
      exact ⟨kv.2, by simp [List.lookup], by simp⟩
    · simp only [List.map_cons, List.mem_cons] at hk
      rcases hk with hk | hk
      · exact absurd hk hke
      · obtain ⟨vs, hvs, hmem⟩ := ih k hk
        refine ⟨vs, ?_, List.mem_cons_of_mem _ hmem⟩
        have hbeq : (k == kv.1) = false := by simpa using hke
        simp [List.lookup, hbeq, hvs]

theorem buildEnvRecord_total (record : List (String × List String)) (B env : Nat)
    (hrec : ∀ kv ∈ record, (kv.2).length = B) (henv : env < B) :
    ∀ ks, (∀ k ∈ ks, k ∈ record.map Prod.fst) →
      (buildEnvRecord ks record env).isSome := by
  intro ks
  induction ks with
  | nil => intro _; simp [buildEnvRecord]
  | cons k rest ih =>
    intro hks
    obtain ⟨vs, hvs, hmem⟩ := lookup_of_mem_keys record k (hks k (by simp))
    have hlenv : vs.length = B := hrec (k, vs) hmem
    obtain ⟨v, hget⟩ : ∃ v, vs[env]? = some v := by
      rw [List.getElem?_eq_getElem (by omega : env < vs.length)]
      exact ⟨_, rfl⟩
    have hrest := ih (fun k2 hk2 => hks k2 (by simp [hk2]))
    obtain ⟨tl, htl⟩ := Option.isSome_iff_exists.mp hrest
    simp [buildEnvRecord, hvs, hget, htl]

theorem storeMem_step (st : WVMemory) (record : List (String × List String)) (B : Nat)
    (hbs : st.batchSize = B) (hdl : st.data.length = B)
    (hrec : ∀ kv ∈ record, (kv.2).length = B) :
    (storeMem st record).2.batchSize = B ∧
    ((storeMem st record).1 = false → (storeMem st record).2.data = st.data) ∧
    ((storeMem st record).1 = true →
      (storeMem st record).2.data.length = B ∧
      (∀ j, (storeMem st record).2.data.get? j =
        (st.data.get? j).map
          (fun l => l ++ [(buildEnvRecord (record.map Prod.fst) record j).getD []]))) := by
  have hsome : ∀ e, 0 ≤ e → e < 0 + B →
      (buildEnvRecord (record.map Prod.fst) record e).isSome := by
    intro e _ he
    exact buildEnvRecord_total record B e hrec (by omega) _ (fun k hk => hk)
  have hspec := storeLoop_spec (record.map Prod.fst) record B 0 st.data hsome (by omega)
  have hdata : ∀ keys2,
      (storeMem st record).2 =
        { st with keys := keys2,
                  data := (storeLoop (record.map Prod.fst) record B 0 st.data).2 } →
      (storeMem st record).2.data.length = B ∧
      (∀ j, (storeMem st record).2.data.get? j =
        (st.data.get? j).map
          (fun l => l ++ [(buildEnvRecord (record.map Prod.fst) record j).getD []])) := by
    intro keys2 heq
    rw [heq]
    constructor
    · exact hspec.2.1.trans hdl
    · intro j
      by_cases hj : j < B
      · exact hspec.2.2.2 j (by omega) (by omega)
      · rw [hspec.2.2.1 j (by omega)]
        have hnone : st.data.get? j = none := by
          rw [List.get?_eq_none]
          omega
        rw [hnone]
        rfl
  rcases hk : st.keys with _ | ks
  · have hsm : storeMem st record =
        ((storeLoop (record.map Prod.fst) record B 0 st.data).1,
         { st with keys := some (record.map Prod.fst),
                   data := (storeLoop (record.map Prod.fst) record B 0 st.data).2 }) := by
      simp only [storeMem, hk, hbs]
    rw [hsm] at hdata ⊢
    exact ⟨hbs, fun hfalse => absurd (hspec.1.symm.trans hfalse) (by simp),
      fun _ => hdata _ rfl⟩
  · by_cases hke : ks = record.map Prod.fst
    · have hsm : storeMem st record =
          ((storeLoop (record.map Prod.fst) record B 0 st.data).1,
           { st with data := (storeLoop (record.map Prod.fst) record B 0 st.data).2 }) := by
        simp only [storeMem, hk]
        rw [if_pos hke, hke, hbs]
      rw [hsm] at hdata ⊢
      exact ⟨hbs, fun hfalse => absurd (hspec.1.symm.trans hfalse) (by simp),
        fun _ => hdata _ rfl⟩
    · have hsm : storeMem st record = (false, st) := by
        simp only [storeMem, hk]
        rw [if_neg hke]
      rw [hsm]
      exact ⟨hbs, fun _ => rfl, fun htrue => absurd htrue (by simp)⟩

theorem runStores_inv (B : Nat) :
    ∀ (rs : List (List (String × List String))) (st : WVMemory) (c : Nat),
      st.batchSize = B → st.data.length = B →
      (∀ j l, st.data.get? j = some l → l.length = c) →
      (∀ r ∈ rs, ∀ kv ∈ r, (kv.2).length = B) →
      (runStores st rs).1.batchSize = B ∧ (runStores st rs).1.data.length = B ∧
      (∀ j l, (runStores st rs).1.data.get? j = some l →
        l.length = c + (runStores st rs).2) := by
  intro rs
  induction rs with
  | nil =>
    intro st c hbs hdl hinv _
    exact ⟨hbs, hdl, fun j l hjl => by simpa using hinv j l hjl⟩
  | cons r rs ih =>
    intro st c hbs hdl hinv hrs
    have hstep := storeMem_step st r B hbs hdl (hrs r (by simp))
    rcases hsm : storeMem st r with ⟨ok, st1⟩
    rw [hsm] at hstep
    simp only at hstep
    have hrs2 : ∀ r2 ∈ rs, ∀ kv ∈ r2, (kv.2).length = B := by
      intro r2 hr2
      exact hrs r2 (by simp [hr2])
    cases ok with
    | false =>
      have hd1 : st1.data = st.data := hstep.2.1 rfl
      have hrec := ih st1 c hstep.1 (by rw [hd1]; exact hdl)
        (by rw [hd1]; exact hinv) hrs2
      rcases hrun : runStores st1 rs with ⟨stf, n⟩
      rw [hrun] at hrec
      simp only [runStores, hsm, hrun]
      exact ⟨hrec.1, hrec.2.1, fun j l hjl => by
        have := hrec.2.2 j l hjl
        simpa using this⟩
    | true =>
      have hlen1 : st1.data.length = B := (hstep.2.2 rfl).1
      have hget1 := (hstep.2.2 rfl).2
      have hinv1 : ∀ j l, st1.data.get? j = some l → l.length = c + 1 := by
        intro j l hjl
        rw [hget1 j] at hjl
        rcases hx : st.data.get? j with _ | l0 <;> rw [hx] at hjl
        · exact Option.noConfusion hjl
        · replace hjl := Option.some.inj hjl
          rw [← hjl]
          simp [hinv j l0 hx]
      have hrec := ih st1 (c + 1) hstep.1 hlen1 hinv1 hrs2
      rcases hrun : runStores st1 rs with ⟨stf, n⟩
      rw [hrun] at hrec
      simp only [runStores, hsm, hrun]
      exact ⟨hrec.1, hrec.2.1, fun j l hjl => by
        have := hrec.2.2 j l hjl
        simp at this ⊢
        omega⟩

/-- Claim C10: after `reset(B)`, running any sequence of `store()` calls
whose value sequences have length `B` (the declared input type) leaves
exactly `B` per-instance logs, and every log's length equals the number of
successful `store()` calls since the reset — a call that fails the schema
assertion leaves the state unchanged and is not counted. -/
theorem c10_equal_log_lengths :
    ∀ (B : Nat) (rs : List (List (String × List String))),
      (∀ r ∈ rs, ∀ kv ∈ r, (kv.2).length = B) →
      (runStores (resetMem emptyWV B) rs).1.data.length = B ∧
      ∀ l ∈ (runStores (resetMem emptyWV B) rs).1.data,
        l.length = (runStores (resetMem emptyWV B) rs).2 := by
  intro B rs hrs
  have hinv0 : ∀ j l, (resetMem emptyWV B).data.get? j = some l → l.length = 0 := by
    intro j l hjl
    simp only [resetMem] at hjl
    have hmem := List.get?_mem hjl
    have hleq := List.eq_of_mem_replicate hmem
    simp [hleq]
  have h := runStores_inv B rs (resetMem emptyWV B) 0 rfl (by simp [resetMem]) hinv0 hrs
  refine ⟨h.2.1, ?_⟩
  intro l hl
  obtain ⟨j, hj⟩ := List.mem_iff_get?.mp hl
  simpa using h.2.2 j l hj

/-- Witness for C10 at a concrete batch: two successful stores and one
schema-failing store over two instances leave both logs at length 2. -/
theorem c10_equal_log_lengths_witness :
    (runStores (resetMem emptyWV 2)
      [[("a", ["x", "y"])], [("b", ["u", "v"])], [("a", ["p", "q"])]]).1.data.length = 2 ∧
    ∀ l ∈ (runStores (resetMem emptyWV 2)
      [[("a", ["x", "y"])], [("b", ["u", "v"])], [("a", ["p", "q"])]]).1.data,
      l.length = (runStores (resetMem emptyWV 2)
        [[("a", ["x", "y"])], [("b", ["u", "v"])], [("a", ["p", "q"])]]).2 :=
  c10_equal_log_lengths 2 [[("a", ["x", "y"])], [("b", ["u", "v"])], [("a", ["p", "q"])]]
    (by decide)


theorem msgImageCount_eq_paths (m : Message) :
    msgImageCount m = (msgImagePaths m).length := by
  unfold msgImageCount msgImagePaths
  induction m.content with
  | nil => rfl
  | cons b rest ih =>
    cases b <;> simp [blockIsImage, blockImagePath, ih]

theorem imagePaths_append (l1 l2 : List Message) :
    imagePaths (l1 ++ l2) = imagePaths l1 ++ imagePaths l2 := by
  simp [imagePaths]

theorem rawMessages_append (l1 l2 : List HRec) :
    rawMessages (l1 ++ l2) = rawMessages l1 ++ rawMessages l2 := by
  simp [rawMessages]

theorem imagePaths_messagesOfRecord (r : HRec) :
    imagePaths (messagesOfRecord r) =
      (match recGet "image_path" r with
       | some p => if p ≠ "" then [p] else []
       | none => []) := by
  unfold messagesOfRecord
  rcases hA : recGet "assistant_text" r with _ | sa
  · rcases hI : recGet "image_path" r with _ | pi
    · simp [imagePaths, msgImagePaths, blockImagePath]
    · by_cases hpi : pi = "" <;> simp [hpi, imagePaths, msgImagePaths, blockImagePath]
  · rcases hI : recGet "image_path" r with _ | pi
    · by_cases hsa : sa = "" <;> simp [hsa, imagePaths, msgImagePaths, blockImagePath]
    · by_cases hsa : sa = "" <;> by_cases hpi : pi = "" <;>
        simp [hsa, hpi, imagePaths, msgImagePaths, blockImagePath]

theorem imagePaths_rawMessages (recs : List HRec) :
    imagePaths (rawMessages recs) = recordImagePaths recs := by
  induction recs with
  | nil => rfl
  | cons r rest ih =>
    show imagePaths (messagesOfRecord r ++ rawMessages rest) = recordImagePaths (r :: rest)
    rw [imagePaths_append, ih, imagePaths_messagesOfRecord]
    rcases hI : recGet "image_path" r with _ | pi
    · simp [recordImagePaths, hI]
    · by_cases hpi : pi = "" <;> simp [recordImagePaths, hI, hpi]

theorem shapedMsg_user_msg (r : HRec) :
    shapedMsg ⟨"user",
      [Block.text ((recGet "user_text" r).getD "")] ++
        (match recGet "image_path" r with
         | some p => if p ≠ "" then [Block.image p] else []
         | none => [])⟩ := by
  rcases hI : recGet "image_path" r with _ | pi
  · exact Or.inr ⟨rfl, Or.inl ⟨_, rfl⟩⟩
  · by_cases hpi : pi = ""
    · exact Or.inr ⟨rfl, Or.inl ⟨(recGet "user_text" r).getD "", by simp [hpi]⟩⟩
    · exact Or.inr ⟨rfl, Or.inr ⟨(recGet "user_text" r).getD "", pi, by simp [hpi]⟩⟩

theorem shaped_rawMessages (recs : List HRec) :
    ∀ m ∈ rawMessages recs, shapedMsg m := by
  induction recs with
  | nil => intro m hm; simp [rawMessages] at hm
  | cons r rest ih =>
    intro m hm
    rw [show rawMessages (r :: rest) = messagesOfRecord r ++ rawMessages rest from rfl] at hm
    rcases List.mem_append.mp hm with hm | hm
    · unfold messagesOfRecord at hm
      rcases hA : recGet "assistant_text" r with _ | sa <;> rw [hA] at hm <;>
        dsimp only at hm
      · simp only [List.nil_append, List.mem_singleton] at hm
        subst hm
        exact shapedMsg_user_msg r
      · by_cases hsa : sa = ""
        · rw [if_neg (by simp [hsa])] at hm
          simp only [List.nil_append, List.mem_singleton] at hm
          subst hm
          exact shapedMsg_user_msg r
        · rw [if_pos hsa] at hm
          simp only [List.singleton_append, List.mem_cons, List.mem_singleton] at hm
          rcases hm with rfl | hm
          · exact Or.inl ⟨rfl, _, rfl⟩
          · rcases hm with rfl | hbad
            · exact shapedMsg_user_msg r
            · simp at hbad
    · exact ih m hm


theorem rewriteMsg_shaped (m : Message) (h : shapedMsg m) : shapedMsg (rewriteMsg m) := by
  rcases h with ⟨hrole, t, hc⟩ | ⟨hrole, ⟨t, hc⟩ | ⟨t, p, hc⟩⟩
  · left
    refine ⟨by simp [rewriteMsg, hrole], t, ?_⟩
    simp [rewriteMsg, hrole]
    exact hc
  · right
    refine ⟨by simp [rewriteMsg, hrole], Or.inl ⟨rewriteUserText t, ?_⟩⟩
    simp [rewriteMsg, hrole, hc, rewriteBlock]
  · right
    refine ⟨by simp [rewriteMsg, hrole], Or.inr ⟨rewriteUserText t, p, ?_⟩⟩
    simp [rewriteMsg, hrole, hc, rewriteBlock]

theorem clipBlocks_textOnly (t : String) (d : Nat) (hd : d ≠ 0) :
    clipBlocksGo 1 d [] [Block.text t] = ([Block.text t], d) := by
  simp [clipBlocksGo, hd]

theorem clipBlocks_textImage (t p : String) (d : Nat) (hd : d ≠ 0) :
    clipBlocksGo 2 d [] [Block.text t, Block.image p] =
      ([Block.text (pyStrip (pyReplace t HINT_TEXT ""))], d - 1) := by
  simp [clipBlocksGo, hd, stripHeadHint]

theorem clipMsgsGo_rel :
    ∀ (msgs : List Message) (k : Nat), (∀ m ∈ msgs, shapedMsg m) →
      List.Forall₂ clipRel msgs (clipMsgsGo k msgs) := by
  intro msgs
  induction msgs with
  | nil => intro k _; simp [clipMsgsGo]
  | cons m rest ih =>
    intro k hsh
    by_cases hk : k = 0
    · subst hk
      simp only [clipMsgsGo, if_pos rfl]
      refine List.forall₂_same.mpr ?_
      intro x _
      exact Or.inl rfl
    · rcases hsh m (by simp) with ⟨hrole, t, hc⟩ | ⟨hrole, ⟨t, hc⟩ | ⟨t, p, hc⟩⟩
      · rw [show clipMsgsGo k (m :: rest) = m :: clipMsgsGo k rest from by
          simp [clipMsgsGo, hk, hrole]]
        exact List.Forall₂.cons (Or.inl rfl) (ih k (fun x hx => hsh x (by simp [hx])))
      · rw [show clipMsgsGo k (m :: rest) = m :: clipMsgsGo k rest from by
          cases m
          simp_all [clipMsgsGo, hk, hc, clipBlocks_textOnly t k hk]]
        exact List.Forall₂.cons (Or.inl rfl) (ih k (fun x hx => hsh x (by simp [hx])))
      · rw [show clipMsgsGo k (m :: rest) =
            (⟨"user", [Block.text (pyStrip (pyReplace t HINT_TEXT ""))]⟩ : Message) ::
              clipMsgsGo (k - 1) rest from by
          cases m
          simp_all [clipMsgsGo, hk, hc, clipBlocks_textImage t p k hk]]
        exact List.Forall₂.cons (Or.inr ⟨hrole, t, p, hc, rfl⟩)
          (ih (k - 1) (fun x hx => hsh x (by simp [hx])))


theorem clipMsgsGo_paths :
    ∀ (msgs : List Message) (k : Nat), (∀ m ∈ msgs, shapedMsg m) →
      imagePaths (clipMsgsGo k msgs) = (imagePaths msgs).drop k := by
  intro msgs
  induction msgs with
  | nil => intro k _; simp [clipMsgsGo, imagePaths]
  | cons m rest ih =>
    intro k hsh
    have hrest : ∀ x ∈ rest, shapedMsg x := fun x hx => hsh x (by simp [hx])
    by_cases hk : k = 0
    · subst hk
      simp [clipMsgsGo]
    · rcases hsh m (by simp) with ⟨hrole, t, hc⟩ | ⟨hrole, ⟨t, hc⟩ | ⟨t, p, hc⟩⟩
      · rw [show clipMsgsGo k (m :: rest) = m :: clipMsgsGo k rest from by
          simp [clipMsgsGo, hk, hrole]]
        rw [show imagePaths (m :: rest) = msgImagePaths m ++ imagePaths rest from rfl,
          show imagePaths (m :: clipMsgsGo k rest) =
            msgImagePaths m ++ imagePaths (clipMsgsGo k rest) from rfl]
        rw [show msgImagePaths m = [] from by simp [msgImagePaths, hc, blockImagePath]]
        simpa using ih k hrest
      · rw [show clipMsgsGo k (m :: rest) = m :: clipMsgsGo k rest from by
          cases m
          simp_all [clipMsgsGo, hk, hc, clipBlocks_textOnly t k hk]]
        rw [show imagePaths (m :: rest) = msgImagePaths m ++ imagePaths rest from rfl,
          show imagePaths (m :: clipMsgsGo k rest) =
            msgImagePaths m ++ imagePaths (clipMsgsGo k rest) from rfl]
        rw [show msgImagePaths m = [] from by simp [msgImagePaths, hc, blockImagePath]]
        simpa using ih k hrest
      · rw [show clipMsgsGo k (m :: rest) =
            (⟨"user", [Block.text (pyStrip (pyReplace t HINT_TEXT ""))]⟩ : Message) ::
              clipMsgsGo (k - 1) rest from by
          cases m
          simp_all [clipMsgsGo, hk, hc, clipBlocks_textImage t p k hk]]
        rw [show imagePaths (m :: rest) = msgImagePaths m ++ imagePaths rest from rfl]
        rw [show msgImagePaths m = [p] from by simp [msgImagePaths, hc, blockImagePath]]
        rw [show imagePaths
            ((⟨"user", [Block.text (pyStrip (pyReplace t HINT_TEXT ""))]⟩ : Message) ::
              clipMsgsGo (k - 1) rest) = imagePaths (clipMsgsGo (k - 1) rest) from by
          simp [imagePaths, msgImagePaths, blockImagePath]]
        rw [ih (k - 1) hrest]
        obtain ⟨k2, rfl⟩ := Nat.exists_eq_succ_of_ne_zero hk
        simp

theorem imagePaths_rewrite (msgs : List Message) :
    imagePaths (msgs.map rewriteMsg) = imagePaths msgs := by
  induction msgs with
  | nil => rfl
  | cons m rest ih =>
    rw [List.map_cons,
      show imagePaths (rewriteMsg m :: List.map rewriteMsg rest) =
        msgImagePaths (rewriteMsg m) ++ imagePaths (rest.map rewriteMsg) from rfl,
      show imagePaths (m :: rest) = msgImagePaths m ++ imagePaths rest from rfl, ih]
    congr 1
    unfold rewriteMsg
    by_cases hrole : m.role = "user" <;> simp [hrole, msgImagePaths]
    induction m.content with
    | nil => rfl
    | cons b bs ihb =>
      cases b <;> simp [rewriteBlock, blockImagePath, ihb]

theorem userImageCount_eq_paths :
    ∀ (msgs : List Message), (∀ m ∈ msgs, shapedMsg m) →
      userImageCount msgs = (imagePaths msgs).length := by
  intro msgs
  induction msgs with
  | nil => intro _; rfl
  | cons m rest ih =>
    intro hsh
    have hrest : ∀ x ∈ rest, shapedMsg x := fun x hx => hsh x (by simp [hx])
    rw [show userImageCount (m :: rest) =
      (if m.role = "user" then msgImageCount m else 0) + userImageCount rest from by
        simp [userImageCount]]
    rw [show imagePaths (m :: rest) = msgImagePaths m ++ imagePaths rest from rfl]
    rw [List.length_append, ih hrest]
    congr 1
    rcases hsh m (by simp) with ⟨hrole, t, hc⟩ | ⟨hrole, _⟩
    · rw [if_neg (by simp [hrole]), show msgImagePaths m = [] from by
        simp [msgImagePaths, hc, blockImagePath]]
      rfl
    · rw [if_pos hrole]
      exact msgImageCount_eq_paths m


theorem clip_env_paths (msgs : List Message) (d : Nat) (hsh : ∀ m ∈ msgs, shapedMsg m) :
    imagePaths (clip_messages_like_env msgs d) =
      (imagePaths msgs).drop ((imagePaths msgs).length - d) := by
  have hshr : ∀ m ∈ msgs.map rewriteMsg, shapedMsg m := by
    intro m hm
    obtain ⟨m0, hm0, rfl⟩ := List.mem_map.mp hm
    exact rewriteMsg_shaped m0 (hsh m0 hm0)
  have hcnt : userImageCount (msgs.map rewriteMsg) = (imagePaths msgs).length := by
    rw [userImageCount_eq_paths _ hshr, imagePaths_rewrite]
  simp only [clip_messages_like_env, hcnt]
  by_cases hgt : (imagePaths msgs).length > d
  · rw [if_pos hgt, clipMsgsGo_paths _ _ hshr, imagePaths_rewrite]
  · rw [if_neg hgt, imagePaths_rewrite,
      show (imagePaths msgs).length - d = 0 from by omega]
    simp

theorem clip_env_rel (msgs : List Message) (d : Nat) (hsh : ∀ m ∈ msgs, shapedMsg m) :
    List.Forall₂ clipRel (msgs.map rewriteMsg) (clip_messages_like_env msgs d) := by
  have hshr : ∀ m ∈ msgs.map rewriteMsg, shapedMsg m := by
    intro m hm
    obtain ⟨m0, hm0, rfl⟩ := List.mem_map.mp hm
    exact rewriteMsg_shaped m0 (hsh m0 hm0)
  simp only [clip_messages_like_env]
  by_cases hgt : userImageCount (msgs.map rewriteMsg) > d
  · rw [if_pos hgt]
    exact clipMsgsGo_rel _ _ hshr
  · rw [if_neg hgt]
    exact List.forall₂_same.mpr (fun x _ => Or.inl rfl)

theorem forall2_get? {R : Message → Message → Prop} :
    ∀ (l1 l2 : List Message), List.Forall₂ R l1 l2 →
      ∀ j a, l1.get? j = some a → ∃ b, l2.get? j = some b ∧ R a b := by
  intro l1
  induction l1 with
  | nil => intro l2 h j a ha; simp at ha
  | cons x xs ih =>
    intro l2 h j a ha
    rcases h with _ | ⟨hxy, htail⟩
    rename_i y ys
    cases j with
    | zero =>
      replace ha := Option.some.inj ha
      subst ha
      exact ⟨y, rfl, hxy⟩
    | succ j => exact ih ys htail j a ha

theorem lastUserIdx_of_getLast (msgs : List Message) (lm : Message)
    (hgl : msgs.getLast? = some lm) (hrole : lm.role = "user") :
    lastUserIdx msgs = some (msgs.length - 1) := by
  have hne : msgs ≠ [] := by
    intro h
    rw [h] at hgl
    exact Option.noConfusion hgl
  have hlm : lm = msgs.getLast hne := by
    have := List.getLast?_eq_getLast msgs hne
    rw [this] at hgl
    exact (Option.some.inj hgl).symm
  have hsplit : msgs.dropLast ++ [lm] = msgs := by
    rw [hlm]
    exact List.dropLast_concat_getLast hne
  unfold lastUserIdx
  rw [← hsplit, List.reverse_append]
  simp only [List.reverse_cons, List.reverse_nil, List.nil_append, List.singleton_append]
  rw [show List.findIdx? (fun m => m.role == "user") (lm :: msgs.dropLast.reverse) =
      some 0 from by simp [List.findIdx?, hrole]]
  simp

theorem set_last_eq {α : Type} :
    ∀ (l : List α) (x : α), l ≠ [] → l.set (l.length - 1) x = l.dropLast ++ [x] := by
  intro l
  induction l with
  | nil => intro x h; exact absurd rfl h
  | cons a rest ih =>
    intro x _
    cases hr : rest with
    | nil => rfl
    | cons b t =>
      subst hr
      rw [show (a :: b :: t).length - 1 = t.length + 1 from by simp]
      rw [show List.set (a :: b :: t) (t.length + 1) x = a :: List.set (b :: t) t.length x
        from rfl]
      rw [show List.set (b :: t) t.length x = List.set (b :: t) ((b :: t).length - 1) x
        from by simp]
      rw [ih x (by simp)]
      rw [List.dropLast_cons_of_ne_nil (by simp : (b : α) :: t ≠ [])]
      rfl


theorem imagePaths_set :
    ∀ (msgs : List Message) (lu : Nat) (m m2 : Message),
      msgs.get? lu = some m → msgImagePaths m2 = msgImagePaths m →
      imagePaths (msgs.set lu m2) = imagePaths msgs := by
  intro msgs
  induction msgs with
  | nil => intro lu m m2 h _; simp at h
  | cons x xs ih =>
    intro lu m m2 h hp
    cases lu with
    | zero =>
      replace h := Option.some.inj h
      subst h
      show msgImagePaths m2 ++ imagePaths xs = msgImagePaths x ++ imagePaths xs
      rw [hp]
    | succ lu =>
      show msgImagePaths x ++ imagePaths (xs.set lu m2) = msgImagePaths x ++ imagePaths xs
      rw [ih lu m m2 h hp]

theorem imagePaths_appendToLast (msgs : List Message) (lu : Nat) (s : String) :
    imagePaths (appendToLastUserText msgs lu s) = imagePaths msgs := by
  unfold appendToLastUserText
  rcases hg : msgs.get? lu with _ | m
  · rfl
  · dsimp only
    rcases hc : m.content with _ | ⟨b, rest⟩
    · rfl
    · cases b with
      | image p => rfl
      | text t =>
        apply imagePaths_set msgs lu m _ hg
        simp [msgImagePaths, hc, blockImagePath]

theorem imagePaths_inject (msgs : List Message) :
    imagePaths (injectAnswerGuard msgs) = imagePaths msgs := by
  unfold injectAnswerGuard
  repeat' (first | split | dsimp only)
  all_goals first
    | rfl
    | apply imagePaths_appendToLast

theorem rawMessages_getLast (recs : List HRec) (hne : recs ≠ []) :
    ∃ lm, (rawMessages recs).getLast? = some lm ∧ lm.role = "user" ∧
      ∃ t rest, lm.content = Block.text t :: rest := by
  obtain ⟨recs0, r, rfl⟩ := List.eq_nil_or_concat recs |>.resolve_left hne
  rw [List.concat_eq_append, rawMessages_append]
  refine ⟨⟨"user",
    [Block.text ((recGet "user_text" r).getD "")] ++
      (match recGet "image_path" r with
       | some p => if p ≠ "" then [Block.image p] else []
       | none => [])⟩, ?_, rfl, _, _, rfl⟩
  rw [show rawMessages [r] = messagesOfRecord r ++ [] from rfl, List.append_nil]
  unfold messagesOfRecord
  rw [← List.append_assoc]
  exact List.getLast?_concat _


theorem clippedMessages_cases (recs : List HRec) (mi : Nat) (lastv : Message)
    (hgl : (rawMessages recs).getLast? = some lastv) (hrole : lastv.role = "user") :
    ((rawMessages recs).length = 1 ∧
      clippedMessages recs mi = clip_messages_like_env (rawMessages recs) mi) ∨
    (2 ≤ (rawMessages recs).length ∧
      clippedMessages recs mi =
        clip_messages_like_env ((rawMessages recs).dropLast) (mi - msgImageCount lastv) ++
          [lastv]) := by
  have hne : rawMessages recs ≠ [] := by
    intro h
    rw [h] at hgl
    exact Option.noConfusion hgl
  have hpos : 0 < (rawMessages recs).length := List.length_pos.mpr hne
  have hlu := lastUserIdx_of_getLast (rawMessages recs) lastv hgl hrole
  have hget : (rawMessages recs).get? ((rawMessages recs).length - 1) = some lastv := by
    rw [← List.getLast?_eq_get?]
    exact hgl
  have hsplit : (rawMessages recs).dropLast ++ [lastv] = rawMessages recs := by
    have hlm : lastv = (rawMessages recs).getLast hne := by
      have h2 := List.getLast?_eq_getLast (rawMessages recs) hne
      rw [h2] at hgl
      exact (Option.some.inj hgl).symm
    rw [hlm]
    exact List.dropLast_concat_getLast hne
  by_cases hlen : (rawMessages recs).length = 1
  · left
    refine ⟨hlen, ?_⟩
    simp only [clippedMessages, hlu]
    rw [if_pos hpos, if_neg (by omega)]
  · right
    have hlen2 : 2 ≤ (rawMessages recs).length := by omega
    refine ⟨hlen2, ?_⟩
    simp only [clippedMessages, hlu]
    rw [if_pos hpos, if_pos (by omega), hget]
    dsimp only
    rw [if_pos hrole]
    congr 1
    · congr 1
      rw [List.dropLast_eq_take]
    · conv_lhs => rw [← hsplit]
      rw [show ((rawMessages recs).dropLast ++ [lastv]).length - 1 =
          (rawMessages recs).dropLast.length from by simp]
      exact List.drop_left _ _


theorem appendToLast_eq_reminder (msgs : List Message) (lm : Message) (t : String)
    (rest : List Block) (hgl : msgs.getLast? = some lm)
    (hc : lm.content = Block.text t :: rest) :
    appendToLastUserText msgs (msgs.length - 1) REMINDER_TEXT = appendReminderLast msgs := by
  have hne : msgs ≠ [] := by
    intro h
    rw [h] at hgl
    exact Option.noConfusion hgl
  have hget : msgs.get? (msgs.length - 1) = some lm := by
    rw [← List.getLast?_eq_get?]
    exact hgl
  unfold appendToLastUserText appendReminderLast
  rw [hget, hgl]
  dsimp only
  rw [hc]
  dsimp only
  exact set_last_eq msgs _ hne

theorem injectGuard_spec (msgs : List Message) (lm : Message) (t : String)
    (rest : List Block) (hgl : msgs.getLast? = some lm) (hrole : lm.role = "user")
    (hc : lm.content = Block.text t :: rest) :
    injectAnswerGuard msgs =
      (match nearestAssistantLeadText msgs with
       | some s => if hasAnswerMarker s then appendReminderLast msgs else msgs
       | none => msgs) := by
  have hne : msgs ≠ [] := by
    intro h
    rw [h] at hgl
    exact Option.noConfusion hgl
  have hlu := lastUserIdx_of_getLast msgs lm hgl hrole
  unfold injectAnswerGuard nearestAssistantLeadText
  rw [if_neg hne, hlu]
  dsimp only
  rcases hna : nearestAssistantBefore msgs (msgs.length - 1) with _ | j
  · rfl
  · dsimp only
    split
    · exact appendToLast_eq_reminder msgs lm t rest hgl hc
    · rfl

theorem clippedMessages_getLast (recs : List HRec) (hne : recs ≠ []) (mi : Nat) :
    ∃ lm t rest, (clippedMessages recs mi).getLast? = some lm ∧ lm.role = "user" ∧
      lm.content = Block.text t :: rest := by
  obtain ⟨lastv, hgl, hrole, t0, rest1, hcont⟩ := rawMessages_getLast recs hne
  have hshape := shaped_rawMessages recs
  rcases clippedMessages_cases recs mi lastv hgl hrole with ⟨hlen, hcm⟩ | ⟨_, hcm⟩
  · obtain ⟨x, hx⟩ := List.length_eq_one.mp hlen
    have hxl : x = lastv := by
      rw [hx] at hgl
      simpa using hgl
    subst hxl
    have hrel := clip_env_rel (rawMessages recs) mi hshape
    have hlen2 := List.Forall₂.length_eq hrel
    obtain ⟨b, hb, hrelb⟩ := forall2_get? _ _ hrel 0 (rewriteMsg x) (by rw [hx]; rfl)
    have hL1 : (clip_messages_like_env (rawMessages recs) mi).length = 1 := by
      rw [← hlen2, List.length_map, hlen]
    have hglL : (clip_messages_like_env (rawMessages recs) mi).getLast? = some b := by
      rw [List.getLast?_eq_get?, hL1]
      simpa using hb
    rcases hrelb with rfl | ⟨_, t2, p2, hc2, rfl⟩
    · refine ⟨rewriteMsg x, rewriteUserText t0, rest1.map rewriteBlock, ?_, ?_, ?_⟩
      · rw [hcm]
        exact hglL
      · simp [rewriteMsg, hrole]
      · simp [rewriteMsg, hrole, hcont, rewriteBlock]
    · exact ⟨_, _, _, by rw [hcm]; exact hglL, rfl, rfl⟩
  · exact ⟨lastv, t0, rest1, by rw [hcm]; exact List.getLast?_concat _, hrole, hcont⟩

/-- C2 (counterexample at `max_images = 0`): with two stored records carrying
images and a zero image budget, the latest user message's image is still
preserved, so the produced history holds one image block and the claimed bound
`count ≤ max_images` fails. -/
theorem c2_image_budget_zero_cex :
    imagePaths (buildEnvMessages
      [[("user_text", "a"), ("image_path", "p1")],
       [("user_text", "b"), ("image_path", "p2")]] 0) = ["p2"] ∧
    ¬ ((imagePaths (buildEnvMessages
      [[("user_text", "a"), ("image_path", "p1")],
       [("user_text", "b"), ("image_path", "p2")]] 0)).length ≤ 0) := by
  decide

/-- C2 (amended: `max_images ≥ 1`): for every stored record sequence and every
image budget `max_images ≥ 1`, the images surviving `build_message_history` are
exactly the newest suffix of the chronological image list — the oldest images
are deleted first — and their count never exceeds `max_images`; moreover, in
the clipping pass every rewritten user message either survives unchanged or,
when its image is deleted, keeps only its leading text block with the helper
hint suffix stripped.  (At `max_images = 0` the bound fails, see the
counterexample theorem.) -/
theorem c2_image_budget :
    (∀ (recs : List HRec) (mi : Nat), 1 ≤ mi →
      imagePaths (buildEnvMessages recs mi) =
        (recordImagePaths recs).drop ((recordImagePaths recs).length - mi) ∧
      (imagePaths (buildEnvMessages recs mi)).length ≤ mi)
    ∧ (∀ (msgs : List Message) (d : Nat), (∀ m ∈ msgs, shapedMsg m) →
        ∀ j t p,
          (msgs.map rewriteMsg).get? j = some ⟨"user", [Block.text t, Block.image p]⟩ →
          (clip_messages_like_env msgs d).get? j =
            some ⟨"user", [Block.text t, Block.image p]⟩ ∨
          (clip_messages_like_env msgs d).get? j =
            some ⟨"user", [Block.text (pyStrip (pyReplace t HINT_TEXT ""))]⟩) := by
  constructor
  · intro recs mi hmi
    rcases hrecs : recs with _ | ⟨r0, rest0⟩
    · constructor <;>
        simp [buildEnvMessages, clippedMessages, injectAnswerGuard, rawMessages, imagePaths,
          recordImagePaths]
    · rw [← hrecs]
      have hne : recs ≠ [] := by rw [hrecs]; simp
      obtain ⟨lastv, hgl, hrole, t0, rest1, hcont⟩ := rawMessages_getLast recs hne
      have hshape := shaped_rawMessages recs
      have hpaths : imagePaths (rawMessages recs) = recordImagePaths recs :=
        imagePaths_rawMessages recs
      rcases clippedMessages_cases recs mi lastv hgl hrole with ⟨hlen, hcm⟩ | ⟨hlen, hcm⟩
      · rw [buildEnvMessages, imagePaths_inject, hcm,
          clip_env_paths _ _ hshape, hpaths]
        constructor
        · rfl
        · rw [List.length_drop]
          omega
      · have hsplit : (rawMessages recs).dropLast ++ [lastv] = rawMessages recs := by
          have hne2 : rawMessages recs ≠ [] := by
            intro h
            rw [h] at hgl
            exact Option.noConfusion hgl
          have hlm : lastv = (rawMessages recs).getLast hne2 := by
            have h2 := List.getLast?_eq_getLast (rawMessages recs) hne2
            rw [h2] at hgl
            exact (Option.some.inj hgl).symm
          rw [hlm]
          exact List.dropLast_concat_getLast hne2
        have hshapeDL : ∀ m ∈ (rawMessages recs).dropLast, shapedMsg m := by
          intro m hm
          apply hshape
          rw [← hsplit]
          exact List.mem_append_left _ hm
        have hlastMem : lastv ∈ rawMessages recs := by
          rw [← hsplit]
          exact List.mem_append_right _ (by simp)
        have hli : msgImageCount lastv ≤ 1 := by
          rcases hshape lastv hlastMem with ⟨_, t, hc⟩ | ⟨_, ⟨t, hc⟩ | ⟨t, p, hc⟩⟩ <;>
            simp [msgImageCount, hc, blockIsImage]
        have hpl : (msgImagePaths lastv).length = msgImageCount lastv :=
          (msgImageCount_eq_paths lastv).symm
        have hsplitPaths : imagePaths (rawMessages recs) =
            imagePaths ((rawMessages recs).dropLast) ++ msgImagePaths lastv := by
          rw [← hsplit, imagePaths_append]
          simp [imagePaths]
        rw [buildEnvMessages, imagePaths_inject, hcm, imagePaths_append,
          clip_env_paths _ _ hshapeDL]
        rw [show imagePaths [lastv] = msgImagePaths lastv from by simp [imagePaths]]
        rw [← hpaths, hsplitPaths]
        set A := imagePaths ((rawMessages recs).dropLast) with hA
        set b := msgImagePaths lastv with hb
        have hbc : b.length = msgImageCount lastv := by rw [hb]; exact hpl
        have hbl : b.length ≤ 1 := by rw [hbc]; exact hli
        have hk : (A ++ b).length - mi ≤ A.length := by
          rw [List.length_append]
          omega
        rw [List.drop_append_of_le_length hk]
        have hkeq : A.length - (mi - msgImageCount lastv) = (A ++ b).length - mi := by
          rw [List.length_append, ← hbc]
          omega
        rw [hkeq]
        constructor
        · rfl
        · rw [List.length_append, List.length_drop, List.length_append]
          omega
  · intro msgs d hsh j t p hget
    have hrel := clip_env_rel msgs d hsh
    obtain ⟨b, hb, hrelb⟩ := forall2_get? _ _ hrel j _ hget
    rcases hrelb with rfl | ⟨hrole, t2, p2, hc2, rfl⟩
    · exact Or.inl hb
    · have hc3 : t = t2 ∧ p = p2 := by simpa using hc2
      rcases hc3 with ⟨rfl, rfl⟩
      exact Or.inr hb

/-- Witness for the C2 theorem at concrete inputs: with two stored images and
budget 1 only the newest image `p2` survives, and a rewritten user message
whose image is deleted is reduced to its stripped leading text block. -/
theorem c2_image_budget_witness :
    (1 ≤ 1 ∧
      imagePaths (buildEnvMessages
        [[("user_text", "a"), ("image_path", "p1")],
         [("user_text", "b"), ("image_path", "p2")]] 1) = ["p2"] ∧
      (imagePaths (buildEnvMessages
        [[("user_text", "a"), ("image_path", "p1")],
         [("user_text", "b"), ("image_path", "p2")]] 1)).length ≤ 1)
    ∧ ((clip_messages_like_env
          [⟨"user", [Block.text "a", Block.image "q"]⟩] 0).get? 0 =
            some ⟨"user", [Block.text OMITTED_TEXT, Block.image "q"]⟩ ∨
        (clip_messages_like_env
          [⟨"user", [Block.text "a", Block.image "q"]⟩] 0).get? 0 =
            some ⟨"user", [Block.text (pyStrip (pyReplace OMITTED_TEXT HINT_TEXT ""))]⟩) := by
  have h1 := c2_image_budget.1
    [[("user_text", "a"), ("image_path", "p1")],
     [("user_text", "b"), ("image_path", "p2")]] 1 (by decide)
  refine ⟨⟨by decide, h1.1.trans (by decide), h1.2⟩, ?_⟩
  refine c2_image_budget.2 [⟨"user", [Block.text "a", Block.image "q"]⟩] 0
    ?_ 0 OMITTED_TEXT "q" (by decide)
  intro m hm
  simp only [List.mem_singleton] at hm
  subst hm
  exact Or.inr ⟨rfl, Or.inr ⟨_, _, rfl⟩⟩

/-- C7: after windowing, compression and clipping, the final message of the
kept history is always a user message, and `build_message_history` equals that
clipped history with the fixed double-check reminder appended to the last
(user) message's leading text block exactly when the leading text of the
single nearest assistant message before the last user message contains the
answer marker; no other assistant message influences the result. -/
theorem c7_answer_guard (recs : List HRec) (mi : Nat) (hne : recs ≠ []) :
    (∃ lm, (clippedMessages recs mi).getLast? = some lm ∧ lm.role = "user") ∧
    buildEnvMessages recs mi =
      (match nearestAssistantLeadText (clippedMessages recs mi) with
       | some s => if hasAnswerMarker s then appendReminderLast (clippedMessages recs mi)
                   else clippedMessages recs mi
       | none => clippedMessages recs mi) := by
  obtain ⟨lm, t, rest, hgl, hrole, hc⟩ := clippedMessages_getLast recs hne mi
  exact ⟨⟨lm, hgl, hrole⟩, injectGuard_spec _ lm t rest hgl hrole hc⟩

/-- Witness for the C7 theorem at a concrete input: a record whose assistant
text contains `Action: ANSWER` makes `build_message_history` append the
double-check reminder to the clipped history's last user message. -/
theorem c7_answer_guard_witness :
    ([[("assistant_text", "Thought: done.\nAction: ANSWER; [42]"), ("user_text", "obs")]] :
        List HRec) ≠ [] ∧
    buildEnvMessages
        [[("assistant_text", "Thought: done.\nAction: ANSWER; [42]"), ("user_text", "obs")]] 3 =
      appendReminderLast (clippedMessages
        [[("assistant_text", "Thought: done.\nAction: ANSWER; [42]"), ("user_text", "obs")]] 3) := by
  refine ⟨by decide, ?_⟩
  have h := (c7_answer_guard
    [[("assistant_text", "Thought: done.\nAction: ANSWER; [42]"), ("user_text", "obs")]] 3
    (by decide)).2
  exact h.trans (by decide)

end ICE
